import Mathlib

/-!
# Verification of the MPS simulator core (`cirq/sim/mps_simulator.py`)

This file is a shallow embedding, in Lean 4, of the `MPSState` class of the
MPS (matrix-product-state) simulator, and proofs about its operations:

* construction from an initial classical basis integer (`MPSState.init`),
* full/partial contraction of the tensor network (`sum_up`, the `_sum_up`
  method),
* unitary application with SVD-based bond truncation (`apply_unitary`),
* measurement with partial trace and probabilistic collapse
  (`perform_measurement`).

Modelling decisions, shared by every definition below:

* Complex float amplitudes are embedded as exact complex numbers `Cx K` over
  an arbitrary linear ordered field `K` (pairs of a real and an imaginary
  part, with the usual arithmetic).  Instantiating `K := ℚ` makes every
  definition executable and decidable on concrete inputs.
* `math.sqrt` (an external floating-point routine) is injected as a function
  parameter `sqrt : K → K`; theorems that depend on it being a square root
  hypothesise exactly that at the values where the code calls it.
* `np.linalg.svd` is an external LAPACK kernel; its output `(X, S, Y)` is
  injected as parameters (`svdX`, `svdS`, `svdY`).  Theorems hypothesise the
  documented properties of the output (singular values sorted descending,
  non-negative) where they are needed.
* The injected pseudo-random source (`prng.choice(d, p=...)`) is a function
  parameter `choice : ℕ → List K → ℕ` returning the sampled index.
* `numpy` arrays are embedded as extent metadata plus a total entry function
  (`Tensor5`, `Tensor3`, `Mat`); an `einsum`/`reshape` chain becomes an
  explicit `Finset.range` sum with divmod index arithmetic (a reshape that
  merges axes `(o, r)` sends the merged index `a` to `(a / rExt, a % rExt)`,
  exactly numpy's row-major layout).
* Python objects (the state's list of `np.ndarray`) are modelled, where an
  aliasing claim requires it, by a heap of tensors addressed by naturals
  (`Heap`, `MPSRef`): `state.M[n] = np.einsum(...)` allocates a fresh array
  and rebinds slot `n` of the state's own list, which is exactly what the
  source does (it never writes into an existing state tensor buffer after
  construction).
-/

namespace MPS

/-- Complex numbers over a field `K`: the embedding of the complex float
amplitudes used by the simulator (`Cx ℚ` gives an executable instance). -/
@[ext]
structure Cx (K : Type) where
  re : K
  im : K
  deriving DecidableEq

namespace Cx

variable {K : Type} [CommRing K]

/-- A real scalar viewed as a complex number (numpy silently promotes the
real `renormalizer`/`collapser` arrays when contracting them with the
complex state tensors). -/
def ofK (x : K) : Cx K := ⟨x, 0⟩

instance : Zero (Cx K) := ⟨⟨0, 0⟩⟩
instance : One (Cx K) := ⟨⟨1, 0⟩⟩
instance : Add (Cx K) := ⟨fun a b => ⟨a.re + b.re, a.im + b.im⟩⟩
instance : Neg (Cx K) := ⟨fun a => ⟨-a.re, -a.im⟩⟩
instance : Mul (Cx K) := ⟨fun a b => ⟨a.re * b.re - a.im * b.im, a.re * b.im + a.im * b.re⟩⟩

@[simp] theorem zero_re : (0 : Cx K).re = 0 := rfl
@[simp] theorem zero_im : (0 : Cx K).im = 0 := rfl
@[simp] theorem one_re : (1 : Cx K).re = 1 := rfl
@[simp] theorem one_im : (1 : Cx K).im = 0 := rfl
@[simp] theorem add_re (a b : Cx K) : (a + b).re = a.re + b.re := rfl
@[simp] theorem add_im (a b : Cx K) : (a + b).im = a.im + b.im := rfl
@[simp] theorem neg_re (a : Cx K) : (-a).re = -a.re := rfl
@[simp] theorem neg_im (a : Cx K) : (-a).im = -a.im := rfl
@[simp] theorem mul_re (a b : Cx K) : (a * b).re = a.re * b.re - a.im * b.im := rfl
@[simp] theorem mul_im (a b : Cx K) : (a * b).im = a.re * b.im + a.im * b.re := rfl
@[simp] theorem ofK_re (x : K) : (ofK x).re = x := rfl
@[simp] theorem ofK_im (x : K) : (ofK x).im = 0 := rfl

instance : AddCommGroup (Cx K) where
  add_assoc := by intros; ext <;> simp <;> ring
  zero_add := by intros; ext <;> simp
  add_zero := by intros; ext <;> simp
  add_comm := by intros; ext <;> simp <;> ring
  neg_add_cancel := by intros; ext <;> simp
  nsmul := nsmulRec
  zsmul := zsmulRec

instance : CommRing (Cx K) :=
  { (inferInstance : AddCommGroup (Cx K)) with
    mul_assoc := by intros; ext <;> simp <;> ring
    one_mul := by intros; ext <;> simp
    mul_one := by intros; ext <;> simp
    left_distrib := by intros; ext <;> simp <;> ring
    right_distrib := by intros; ext <;> simp <;> ring
    mul_comm := by intros; ext <;> simp <;> ring
    zero_mul := by intros; ext <;> simp
    mul_zero := by intros; ext <;> simp }

@[simp] theorem ofK_mul (x y : K) : ofK (x * y) = ofK x * ofK y := by
  ext <;> simp

@[simp] theorem ofK_zero : (ofK 0 : Cx K) = 0 := by ext <;> simp

/-- `abs(z) ** 2` for a complex value: the squared modulus, used by the
measurement engine to turn amplitudes into probabilities. -/
def normSq (a : Cx K) : K := a.re * a.re + a.im * a.im

@[simp] theorem normSq_mul (a b : Cx K) : normSq (a * b) = normSq a * normSq b := by
  simp [normSq]; ring

@[simp] theorem normSq_ofK (x : K) : normSq (ofK x) = x * x := by simp [normSq]

@[simp] theorem normSq_zero : normSq (0 : Cx K) = 0 := by simp [normSq]

theorem normSq_nonneg {K : Type} [LinearOrderedCommRing K] (a : Cx K) : 0 ≤ normSq a := by
  have h1 : 0 ≤ a.re * a.re := mul_self_nonneg _
  have h2 : 0 ≤ a.im * a.im := mul_self_nonneg _
  simpa [normSq] using add_nonneg h1 h2

end Cx

/-- A 5-axis dense array (one Tensor Site of the MPS): extents
`(e0, e1, e2, e3, e4)` for the axes
`(row-previous, row-current, col-previous, col-current, physical)` and a
total entry function (reads outside the extents are junk, exactly like a
numpy array never has them indexed). -/
@[ext]
structure Tensor5 (K : Type) where
  e0 : ℕ
  e1 : ℕ
  e2 : ℕ
  e3 : ℕ
  e4 : ℕ
  f : ℕ → ℕ → ℕ → ℕ → ℕ → Cx K

/-- A 3-axis dense array, the running row accumulator `M` of `_sum_up`. -/
@[ext]
structure Tensor3 (K : Type) where
  d0 : ℕ
  d1 : ℕ
  d2 : ℕ
  g : ℕ → ℕ → ℕ → Cx K

/-- A 2-axis dense real array (`renormalizer`, `collapser`, `np.eye`,
`np.diag` are all real-valued in the source). -/
structure Mat (K : Type) where
  rows : ℕ
  cols : ℕ
  f : ℕ → ℕ → K

variable {K : Type}

/-- `np.ones((1, 1, 1, 1, 1))`. -/
def ones5 [CommRing K] : Tensor5 K := ⟨1, 1, 1, 1, 1, fun _ _ _ _ _ => 1⟩

/-- `np.ones((1, 1, 1))`. -/
def ones3 [CommRing K] : Tensor3 K := ⟨1, 1, 1, fun _ _ _ => 1⟩

/-- The initial Tensor Site of one qudit: `np.zeros((1, 1, 1, 1, d))` with a
single `1.0` at physical index `digit` (source lines 240-253). -/
def basisSite [CommRing K] (d digit : ℕ) : Tensor5 K :=
  ⟨1, 1, 1, 1, d,
    fun m n o p i => if m = 0 ∧ n = 0 ∧ o = 0 ∧ p = 0 ∧ i = digit then 1 else 0⟩

/-- `np.eye(d)`. -/
def matEye [CommRing K] (d : ℕ) : Mat K :=
  ⟨d, d, fun a b => if a = b then 1 else 0⟩

/-- `np.ones(1)` (numpy promotes it to shape `(1, 1)` inside `np.kron`). -/
def matOnes1 [CommRing K] : Mat K := ⟨1, 1, fun _ _ => 1⟩

/-- `np.kron a b`: block structure `(x, y) ↦ a[x / b.rows, y / b.cols] *
b[x % b.rows, y % b.cols]`. -/
def matKron [CommRing K] (a b : Mat K) : Mat K :=
  ⟨a.rows * b.rows, a.cols * b.cols,
    fun x y => a.f (x / b.rows) (y / b.cols) * b.f (x % b.rows) (y % b.cols)⟩

/-- One qudit as the state sees it: its grid coordinates (only meaningful
for grid qubits), its local dimension, and whether it is a
`GridQid`/`GridQubit` (used to derive the topology flag). -/
structure Qudit where
  isGrid : Bool
  row : ℤ
  col : ℤ
  dim : ℕ
  deriving DecidableEq

instance : Inhabited Qudit := ⟨⟨false, 0, 0, 0⟩⟩

/-- A line qudit of dimension `d` (e.g. `cirq.LineQid(x, d)`): not a grid
qubit, so only its dimension matters to the state. -/
def qd (d : ℕ) : Qudit := ⟨false, 0, 0, d⟩

/-- A grid qubit `cirq.GridQubit(r, c)` (dimension 2). -/
def gq (r c : ℤ) : Qudit := ⟨true, r, c, 2⟩

/-- The `MPSState` class: the qudit index map (`qubit_map`, embedded as the
insertion-ordered key list, position `i` being the mapped index of the
`i`-th key), the Tensor Sites `M`, the truncation `threshold` and the
topology flag `is_2d_grid` (source lines 231-266; `num_rows` is never read
by the methods verified here and is omitted). -/
structure MPSState (K : Type) where
  qubit_map : List Qudit
  M : List (Tensor5 K)
  threshold : K
  is_2d_grid : Bool

namespace MPSState

/-- The digit-extraction loop of `__init__` (source lines 238-255): iterate
the qudits in map order, take `initial_state % d` as the physical digit of a
fresh basis-vector site of that qudit's dimension, divide by `d`, append. -/
def initLoop [CommRing K] : List Qudit → ℕ → List (Tensor5 K)
  | [], _ => []
  | q :: qs, s => basisSite q.dim (s % q.dim) :: initLoop qs (s / q.dim)

/-- `MPSState.__init__(qubit_map, initial_state)` (source lines 235-266):
build one basis-vector site per qudit from the mixed-radix digits of
`initial_state`, then reverse the site list (`self.M = self.M[::-1]`).
`threshold` is the float literal `1e-3`, embedded exactly as `1/1000`.
`is_2d_grid` is `isinstance(next(iter(qubit_map)), (GridQid, GridQubit))`
for a non-empty map and falsy for an empty one.  There is no validation of
`initial_state` anywhere in the constructor: no exception path exists. -/
def init [Field K] (qubit_map : List Qudit) (initial_state : ℕ) : MPSState K :=
  { qubit_map := qubit_map
    M := (initLoop qubit_map initial_state).reverse
    threshold := 1 / 1000
    is_2d_grid := (qubit_map.headD default).isGrid }

/-- The total Hilbert-space dimension `∏ dᵢ` of a qudit register. -/
def totalDim (qubit_map : List Qudit) : ℕ := (qubit_map.map Qudit.dim).prod

section SumUp

variable [CommRing K]

/-- `row_i = list(self.qubit_map.keys())[i].row if self.is_2d_grid else 0`
(source line 283). -/
def rowOf (s : MPSState K) (i : ℕ) : ℤ :=
  if s.is_2d_grid then (s.qubit_map.getD i default).row else 0

/-- `skip_tracing_out = not skip_tracing_out_for_qubits or i in
skip_tracing_out_for_qubits` (source line 301): with the skip set embedded
as a list, an empty list plays the role of both `None` and the empty set
(both falsy in Python). -/
def keepQ (keep : List ℕ) (i : ℕ) : Bool := keep.isEmpty || keep.contains i

/-- Source lines 304-311: `Mi = np.einsum('mnopi,nqrsj->mqorpsij', Mi,
self.M[i])` followed by the reshape merging the axis pairs `(o, r)`,
`(p, s)` and `(i, j)`.  The contracted axis `n` ranges over `Mi.e1`
(numpy requires `Mi.e1 = site.e0`). -/
def stepKeep (Mi site : Tensor5 K) : Tensor5 K :=
  ⟨Mi.e0, site.e1, Mi.e2 * site.e2, Mi.e3 * site.e3, Mi.e4 * site.e4,
    fun m q a b z =>
      ∑ n ∈ Finset.range Mi.e1,
        Mi.f m n (a / site.e2) (b / site.e3) (z / site.e4) *
          site.f n q (a % site.e2) (b % site.e3) (z % site.e4)⟩

/-- Source lines 313-320: `Mi = np.einsum('mnopi,nqrsj->mqorpsi', Mi,
self.M[i])` (the physical index `j` of the site is summed out) followed by
the reshape merging `(o, r)` and `(p, s)`. -/
def stepTrace (Mi site : Tensor5 K) : Tensor5 K :=
  ⟨Mi.e0, site.e1, Mi.e2 * site.e2, Mi.e3 * site.e3, Mi.e4,
    fun m q a b z =>
      ∑ n ∈ Finset.range Mi.e1, ∑ j ∈ Finset.range site.e4,
        Mi.f m n (a / site.e2) (b / site.e3) z *
          site.f n q (a % site.e2) (b % site.e3) j⟩

/-- `Mi = Mi[0, 0, :, :, :]` (source lines 293 and 326). -/
def rowSlice (Mi : Tensor5 K) : Tensor3 K :=
  ⟨Mi.e2, Mi.e3, Mi.e4, fun a b z => Mi.f 0 0 a b z⟩

/-- `M = np.einsum('mni,npj->mpij', M, Mi)` followed by the reshape merging
the last two axes (source lines 295-296 and 328-329). -/
def rowJoin (M Mi : Tensor3 K) : Tensor3 K :=
  ⟨M.d0, Mi.d1, M.d2 * Mi.d2,
    fun m p z =>
      ∑ n ∈ Finset.range M.d1, M.g m n (z / Mi.d2) * Mi.g n p (z % Mi.d2)⟩

/-- The loop state of `_sum_up`: the current grid row (`-1` is the "no row
seen yet" sentinel), the cross-row accumulator `M` and the in-row
accumulator `Mi`. -/
structure SumAcc (K : Type) where
  row : ℤ
  M3 : Tensor3 K
  Mi : Tensor5 K

/-- One iteration of the `_sum_up` loop (source lines 282-320): on a row
change, close the previous row into `M` (or initialise `M` on the very
first row) and reset `Mi`; then contract the current site into `Mi`,
keeping or tracing out its physical axis. -/
def sumStep (s : MPSState K) (keep : List ℕ) (acc : SumAcc K) (i : ℕ) : SumAcc K :=
  let rowI := rowOf s i
  let acc' :=
    if acc.row ≠ rowI then
      ⟨rowI, if acc.row = -1 then ones3 else rowJoin acc.M3 (rowSlice acc.Mi), ones5⟩
    else acc
  let site := s.M.getD i ones5
  ⟨acc'.row, acc'.M3, if keepQ keep i then stepKeep acc'.Mi site else stepTrace acc'.Mi site⟩

/-- The `_sum_up` loop after processing the first `m` sites.  (In Python
`M` and `Mi` are unassigned before the first iteration; for a non-empty
site list the first iteration always overwrites them — except when the
first qudit's grid row is literally `-1`, where the reference collides with
its own sentinel and crashes with `NameError`; the embedding initialises
them to `ones3`/`ones5`, i.e. behaves as if that first row had been opened
normally.) -/
def sumAccAfter (s : MPSState K) (keep : List ℕ) (m : ℕ) : SumAcc K :=
  (List.range m).foldl (sumStep s keep) ⟨-1, ones3, ones5⟩

/-- `MPSState._sum_up(skip_tracing_out_for_qubits)` (source lines 280-335):
run the loop over every site, close the last row, and return the final
amplitude vector `M[0, 0, :]` as a total function of the merged physical
index. -/
def sum_up (s : MPSState K) (keep : List ℕ) : ℕ → Cx K :=
  let acc := sumAccAfter s keep s.M.length
  let Mf := rowJoin acc.M3 (rowSlice acc.Mi)
  fun z => Mf.g 0 0 z

end SumUp

section Apply

variable [LinearOrderedField K]

/-- The truncation loop of `apply_unitary` (source lines 389-392):

    nkeep = 0
    for i in range(S.shape[0]):
        if S[i] >= S[0] * self.threshold:
            nkeep = i + 1

applied to whatever list `S` holds at that point. -/
def nkeepOf (threshold : K) (S : List K) : ℕ :=
  (List.range S.length).foldl
    (fun nk i => if S.getD 0 0 * threshold ≤ S.getD i 0 then i + 1 else nk) 0

/-- The number of singular values kept by one two-qudit application: the
loop above runs on `S = np.asarray([math.sqrt(x) for x in S])` (source
line 387), i.e. on the elementwise square roots of the singular values
returned by `np.linalg.svd`. -/
def truncRank (threshold : K) (sqrt : K → K) (svdS : List K) : ℕ :=
  nkeepOf threshold (svdS.map sqrt)

/-- `np.einsum('ij,mnopj->mnopi', A, t)` for a complex matrix `A` whose
rows/columns both have extent `d`: the single-qudit gate contraction
(source line 348) and, with a real diagonal `A`, the measurement
renormalizer contraction (source line 439). -/
def applySinglePhys (A : ℕ → ℕ → Cx K) (d : ℕ) (t : Tensor5 K) : Tensor5 K :=
  ⟨t.e0, t.e1, t.e2, t.e3, d,
    fun m n o p i => ∑ j ∈ Finset.range d, A i j * t.f m n o p j⟩

/-- The adjacency check of the two-qudit branch of `apply_unitary` (source
lines 351-372), returning `same_row` on success and the raised `ValueError`
message on failure. -/
def adjacencyCheck (s : MPSState K) (q0 q1 : ℕ) : Except String Bool :=
  let qd0 := s.qubit_map.getD q0 default
  let qd1 := s.qubit_map.getD q1 default
  if s.is_2d_grid then
    if qd0.row = qd1.row then
      if (qd0.col - qd1.col).natAbs ≠ 1 then
        Except.error "qubits on same row but not one column appart"
      else Except.ok true
    else if qd0.col = qd1.col then
      if (qd0.row - qd1.row).natAbs ≠ 1 then
        Except.error "qubits on same column but not one row appart"
      else Except.ok false
    else Except.error "qubits neither on same row nor on same column"
  else
    if ((q0 : ℤ) - (q1 : ℤ)).natAbs ≠ 1 then
      Except.error "Can only handle continguous qubits"
    else Except.ok true

/-- The two-qudit branch of `apply_unitary` (source lines 349-403), given
the injected SVD output of the flattened joint tensor.  Returns the two
positions `(n, p)` (in index order) together with the two new Tensor Sites;
the caller stores them back into the state.  `q0`, `q1` are the positions
`qubit_map[op.qubits[0]]`, `qubit_map[op.qubits[1]]` and `U` is the dense
unitary, whose reshape to `[d0, d1, d0, d1]` and conditional
`np.swapaxes(np.swapaxes(U, 0, 1), 2, 3)` are embedded as index
arithmetic. -/
def applyTwoQubitCore (sqrt : K → K) (svdX : ℕ → ℕ → Cx K) (svdS : List K)
    (svdY : ℕ → ℕ → Cx K) (s : MPSState K) (q0 q1 : ℕ) (U : ℕ → ℕ → Cx K) :
    Except String (ℕ × ℕ × Tensor5 K × Tensor5 K) :=
  match adjacencyCheck s q0 q1 with
  | Except.error e => Except.error e
  | Except.ok same_row =>
    let d1op := (s.qubit_map.getD q1 default).dim
    let U4 : ℕ → ℕ → ℕ → ℕ → Cx K := fun k l i j => U (k * d1op + l) (i * d1op + j)
    let n := if q0 < q1 then q0 else q1
    let p := if q0 < q1 then q1 else q0
    let U' := if q0 < q1 then U4 else fun k l i j => U4 l k j i
    let dn := (s.qubit_map.getD n default).dim
    let dp := (s.qubit_map.getD p default).dim
    let Mn := s.M.getD n ones5
    let Mp := s.M.getD p ones5
    let Ssq := svdS.map sqrt
    let nkeep := truncRank s.threshold sqrt svdS
    let Sm : ℕ → ℕ → K := fun y ν => if y = ν then Ssq.getD y 0 else 0
    if same_row then
      -- T = np.einsum('klij,mnopi,nqrsj->mopkqrsl', U, self.M[n], self.M[p])
      let t1 := Mn.e2
      let t2 := Mn.e3
      let t3 := dn
      let t5 := Mp.e2
      let t6 := Mp.e3
      let t7 := dp
      let T : ℕ → ℕ → ℕ → ℕ → ℕ → ℕ → ℕ → ℕ → Cx K := fun m o p' k q r s' l =>
        ∑ ν ∈ Finset.range Mn.e1, ∑ i ∈ Finset.range dn, ∑ j ∈ Finset.range dp,
          U' k l i j * Mn.f m ν o p' i * Mp.f ν q r s' j
      -- X, S, Y = np.linalg.svd(T.reshape([prod(T.shape[0:4]), prod(T.shape[4:8])]))
      -- The flattened matrix handed to the external SVD kernel; `svdX`,
      -- `svdS`, `svdY` are injected as that kernel's output for it.
      let A : ℕ → ℕ → Cx K := fun x y =>
        T (x / (t1 * t2 * t3)) (x / (t2 * t3) % t1) (x / t3 % t2) (x % t3)
          (y / (t5 * t6 * t7)) (y / (t6 * t7) % t5) (y / t7 % t6) (y % t7)
      let _ := A
      -- X = X.reshape(T.shape[0:4] + (-1,)); Y = Y.reshape((-1,) + T.shape[4:8])
      let X5 : ℕ → ℕ → ℕ → ℕ → ℕ → Cx K := fun m o p' k y =>
        svdX (((m * t1 + o) * t2 + p') * t3 + k) y
      let Y5 : ℕ → ℕ → ℕ → ℕ → ℕ → Cx K := fun y q r s' l =>
        svdY y (((q * t5 + r) * t6 + s') * t7 + l)
      -- self.M[n] = np.einsum('mopky,yn->mnopk', X[..., :nkeep], np.diag(S[:nkeep]))
      let Mn' : Tensor5 K :=
        ⟨Mn.e0, nkeep, t1, t2, t3,
          fun m ν o p' k => ∑ y ∈ Finset.range nkeep, X5 m o p' k y * Cx.ofK (Sm y ν)⟩
      -- self.M[p] = np.einsum('yn,yqrsl->nqrsl', np.diag(S[:nkeep]), Y[:nkeep])
      let Mp' : Tensor5 K :=
        ⟨nkeep, Mp.e1, t5, t6, t7,
          fun ν q r s' l => ∑ y ∈ Finset.range nkeep, Cx.ofK (Sm y ν) * Y5 y q r s' l⟩
      Except.ok (n, p, Mn', Mp')
    else
      -- T = np.einsum('klij,mnopi,qrpsj->mnokqrsl', U, self.M[n], self.M[p])
      let t1 := Mn.e1
      let t2 := Mn.e2
      let t3 := dn
      let t5 := Mp.e1
      let t6 := Mp.e3
      let t7 := dp
      let T : ℕ → ℕ → ℕ → ℕ → ℕ → ℕ → ℕ → ℕ → Cx K := fun m n' o k q r s' l =>
        ∑ ν ∈ Finset.range Mn.e3, ∑ i ∈ Finset.range dn, ∑ j ∈ Finset.range dp,
          U' k l i j * Mn.f m n' o ν i * Mp.f q r ν s' j
      -- Flattened matrix handed to the external SVD kernel (see same-row branch).
      let A : ℕ → ℕ → Cx K := fun x y =>
        T (x / (t1 * t2 * t3)) (x / (t2 * t3) % t1) (x / t3 % t2) (x % t3)
          (y / (t5 * t6 * t7)) (y / (t6 * t7) % t5) (y / t7 % t6) (y % t7)
      let _ := A
      let X5 : ℕ → ℕ → ℕ → ℕ → ℕ → Cx K := fun m n' o k y =>
        svdX (((m * t1 + n') * t2 + o) * t3 + k) y
      let Y5 : ℕ → ℕ → ℕ → ℕ → ℕ → Cx K := fun y q r s' l =>
        svdY y (((q * t5 + r) * t6 + s') * t7 + l)
      -- self.M[n] = np.einsum('mnoky,yp->mnopk', X[..., :nkeep], np.diag(S[:nkeep]))
      let Mn' : Tensor5 K :=
        ⟨Mn.e0, t1, t2, nkeep, t3,
          fun m n' o ν k => ∑ y ∈ Finset.range nkeep, X5 m n' o k y * Cx.ofK (Sm y ν)⟩
      -- self.M[p] = np.einsum('yp,yqrsl->qrpsl', np.diag(S[:nkeep]), Y[:nkeep])
      let Mp' : Tensor5 K :=
        ⟨Mp.e0, t5, nkeep, t6, t7,
          fun q r ν s' l => ∑ y ∈ Finset.range nkeep, Cx.ofK (Sm y ν) * Y5 y q r s' l⟩
      Except.ok (n, p, Mn', Mp')

/-- `MPSState.apply_unitary(op)` (source lines 343-405).  The qudits the
operation acts on are given by their mapped positions; `U` is the dense
unitary matrix of the operation (`protocols.unitary(op)`). -/
def apply_unitary (sqrt : K → K) (svdX : ℕ → ℕ → Cx K) (svdS : List K)
    (svdY : ℕ → ℕ → Cx K) (s : MPSState K) (qs : List ℕ) (U : ℕ → ℕ → Cx K) :
    Except String (MPSState K) :=
  match qs with
  | [q] =>
    let d := (s.qubit_map.getD q default).dim
    Except.ok { s with M := s.M.set q (applySinglePhys U d (s.M.getD q ones5)) }
  | [q0, q1] =>
    match applyTwoQubitCore sqrt svdX svdS svdY s q0 q1 U with
    | Except.error e => Except.error e
    | Except.ok (n, p, Mn', Mp') =>
      Except.ok { s with M := (s.M.set n Mn').set p Mp' }
  | _ => Except.error "Can only handle 1 and 2 qubit operations"

end Apply

section Measure

variable [LinearOrderedField K]

/-- `np.prod(qid_shape[k:])`: the row-major stride data of the reshape
`M.reshape(qid_shape)` in `perform_measurement`. -/
def suffProd (qid_shape : List ℕ) (k : ℕ) : ℕ := ((qid_shape.drop k).prod)

/-- The axis-`i` digit of a flat row-major index into an array of shape
`qid_shape`. -/
def digitOf (qid_shape : List ℕ) (i z : ℕ) : ℕ :=
  (z / suffProd qid_shape (i + 1)) % qid_shape.getD i 0

/-- `M_traced_out = np.sum(M.reshape(qid_shape), axis=tuple(trace_out_idx))`
(source lines 424-425): entry `j` sums the amplitudes of every flat index
whose axis-`i` digit is `j`. -/
def tracedOut (qid_shape : List ℕ) (i : ℕ) (V : ℕ → Cx K) (j : ℕ) : Cx K :=
  ∑ z ∈ (Finset.range (suffProd qid_shape 0)).filter fun z => digitOf qid_shape i z = j,
    V z

/-- `probs = [abs(x) ** 2 for x in M_traced_out]` (source line 426). -/
def stepProbs (qid_shape : List ℕ) (i : ℕ) (V : ℕ → Cx K) : List K :=
  (List.range (qid_shape.getD i 0)).map fun j => Cx.normSq (tracedOut qid_shape i V j)

/-- `norm_probs = [x / sum(probs) for x in probs]` (source line 430). -/
def normProbs (probs : List K) : List K := probs.map fun x => x / probs.sum

/-- The `renormalizer` array (source lines 435-436): zeros except
`1 / sqrt(probs[result])` at `(result, result)`. -/
def renormalizer (sqrt : K → K) (d result : ℕ) (p : K) : Mat K :=
  ⟨d, d, fun a b => if a = result ∧ b = result then 1 / sqrt p else 0⟩

/-- The `collapser` build loop (source lines 441-446):

    collapser = np.ones(1)
    for j in range(len(qubits)):
        if j == i:
            collapser = np.kron(collapser, renormalizer)
        else:
            collapser = np.kron(collapser, np.eye(qid_shape[i]))

Note the `np.eye(qid_shape[i])`: the identity factor is sized by the
dimension of the qudit currently being measured (index `i`), not by the
dimension of the axis `j` it is placed on. -/
def collapserMat (qid_shape : List ℕ) (i : ℕ) (renorm : Mat K) : Mat K :=
  (List.range qid_shape.length).foldl
    (fun acc j =>
      if j = i then matKron acc renorm else matKron acc (matEye (qid_shape.getD i 0)))
    matOnes1

/-- One iteration of the `perform_measurement` loop (source lines 422-450)
for the `i`-th measured qudit at position `q`, acting on the running
reduced tensor `V` and the state's sites: returns the sampled `result`, the
new Tensor Site for position `q`, and the updated reduced tensor
`np.einsum('ij,j->i', collapser, M)`. -/
def measStepCore (sqrt : K → K) (choice : ℕ → List K → ℕ) (qid_shape : List ℕ)
    (i : ℕ) (V : ℕ → Cx K) (site : Tensor5 K) : ℕ × Tensor5 K × (ℕ → Cx K) :=
  let d := qid_shape.getD i 0
  let probs := stepProbs qid_shape i V
  let nps := normProbs probs
  let result := choice d nps
  let renorm := renormalizer sqrt d result (probs.getD result 0)
  let site' := applySinglePhys (fun a b => Cx.ofK (renorm.f a b)) d site
  let coll := collapserMat qid_shape i renorm
  let V' : ℕ → Cx K := fun z => ∑ y ∈ Finset.range coll.cols, Cx.ofK (coll.f z y) * V y
  (result, site', V')

/-- The loop state of `perform_measurement`. -/
structure MeasAcc (K : Type) where
  V : ℕ → Cx K
  s : MPSState K
  results : List ℕ

/-- The `for i, qubit in enumerate(qubits)` loop of `perform_measurement`
(source lines 422-450); `i` is the running enumeration index. -/
def measLoop (sqrt : K → K) (choice : ℕ → List K → ℕ) (qid_shape : List ℕ) :
    ℕ → MeasAcc K → List ℕ → MeasAcc K
  | _, acc, [] => acc
  | i, acc, q :: rest =>
    let step := measStepCore sqrt choice qid_shape i acc.V (acc.s.M.getD q ones5)
    measLoop sqrt choice qid_shape (i + 1)
      ⟨step.2.2, { acc.s with M := acc.s.M.set q step.2.1 }, acc.results ++ [step.1]⟩
      rest

/-- `MPSState.perform_measurement(qubits, prng, collapse_state_vector)`
(source lines 407-452), with the measured qudits given by their mapped
positions.  Returns the outcome list together with the state as seen by the
caller afterwards: the mutated state when collapsing, the original state
otherwise (the mutation then happens on `self.copy()` and is discarded). -/
def perform_measurement (sqrt : K → K) (choice : ℕ → List K → ℕ) (s : MPSState K)
    (qs : List ℕ) (collapse : Bool) : List ℕ × MPSState K :=
  let qid_shape := qs.map fun q => (s.qubit_map.getD q default).dim
  let V := sum_up s qs
  let fin := measLoop sqrt choice qid_shape 0 ⟨V, s, []⟩ qs
  (fin.results, if collapse then fin.s else s)

/-! Definitional shorthands for the quantities computed when a single qudit
at position `n` is measured (`perform_measurement` on the one-element list
`[n]`): local dimension, `probs`, `norm_probs`, sampled `result` and
`probs[result]`.  Each is exactly the corresponding expression of the
source loop's only iteration. -/

/-- `d = qubit.dimension`. -/
def measDim (s : MPSState K) (n : ℕ) : ℕ := (s.qubit_map.getD n default).dim

/-- `probs` of the only iteration when measuring `[n]`. -/
def measProbs1 (s : MPSState K) (n : ℕ) : List K :=
  stepProbs [measDim s n] 0 (sum_up s [n])

/-- `norm_probs` of the only iteration when measuring `[n]`. -/
def measNorm1 (s : MPSState K) (n : ℕ) : List K := normProbs (measProbs1 s n)

/-- `result = prng.choice(d, p=norm_probs)` of that iteration. -/
def measR1 (choice : ℕ → List K → ℕ) (s : MPSState K) (n : ℕ) : ℕ :=
  choice (measDim s n) (measNorm1 s n)

/-- `probs[result]` of that iteration. -/
def measP (choice : ℕ → List K → ℕ) (s : MPSState K) (n : ℕ) : K :=
  (measProbs1 s n).getD (measR1 choice s n) 0

end Measure

end MPSState

/-! ## Object-level model

The frame/aliasing claims speak about Python object identity: the state
owns a list whose slots hold references to `np.ndarray` buffers, and every
mutation in the source (`self.M[n] = np.einsum(...)`, `state.M[n] = ...`)
rebinds a slot of the state's own list to a freshly produced array — the
source never writes into an existing state buffer after construction.  We
model buffers by a monotone allocator: a heap maps addresses to tensors,
allocation returns a fresh address past every address handed out so far. -/

/-- A heap of tensor buffers: the next fresh address, and the contents of
every address. -/
structure Heap (K : Type) where
  next : ℕ
  mem : ℕ → Tensor5 K

/-- Allocate a fresh buffer holding `t` (what a numpy call producing a new
array does). -/
def allocT (h : Heap K) (t : Tensor5 K) : Heap K × ℕ :=
  (⟨h.next + 1, fun a => if a = h.next then t else h.mem a⟩, h.next)

/-- Allocate a buffer for each tensor of a list (`[x.copy() for x in
self.M]`). -/
def allocList (h : Heap K) : List (Tensor5 K) → Heap K × List ℕ
  | [] => (h, [])
  | t :: ts =>
    let p := allocT h t
    let q := allocList p.1 ts
    (q.1, p.2 :: q.2)

/-- An `MPSState` Python object: the immutable qudit map and threshold plus
the mutable list of buffer references. -/
structure MPSRef (K : Type) where
  qubit_map : List Qudit
  addrs : List ℕ
  threshold : K
  is_2d_grid : Bool

/-- The value an `MPSState` object denotes under a heap. -/
def readState (h : Heap K) (r : MPSRef K) : MPSState K :=
  ⟨r.qubit_map, r.addrs.map h.mem, r.threshold, r.is_2d_grid⟩

/-- `MPSState.copy` (source lines 274-278): a fresh `MPSState` object whose
`M` is a fresh list of fresh copies of the current buffers; the qudit map
and threshold are shared (immutable). -/
def copyRef (h : Heap K) (r : MPSRef K) : Heap K × MPSRef K :=
  let q := allocList h (r.addrs.map h.mem)
  (q.1, ⟨r.qubit_map, q.2, r.threshold, r.is_2d_grid⟩)

/-- `apply_unitary` at the object level: compute the new site(s) from the
denoted state, allocate them as fresh buffers and rebind the slots
(`self.M[n] = np.einsum(...)`, source lines 348 and 399-403).  A raised
`ValueError` is returned as `some message` with heap and object untouched
(the source raises before any state mutation). -/
def apply_unitary_ref [LinearOrderedField K] (sqrt : K → K) (svdX : ℕ → ℕ → Cx K)
    (svdS : List K) (svdY : ℕ → ℕ → Cx K) (h : Heap K) (r : MPSRef K)
    (qs : List ℕ) (U : ℕ → ℕ → Cx K) : Heap K × MPSRef K × Option String :=
  match qs with
  | [q] =>
    let s := readState h r
    let d := (s.qubit_map.getD q default).dim
    let t' := MPSState.applySinglePhys U d (s.M.getD q ones5)
    let p := allocT h t'
    (p.1, { r with addrs := r.addrs.set q p.2 }, none)
  | [q0, q1] =>
    match MPSState.applyTwoQubitCore sqrt svdX svdS svdY (readState h r) q0 q1 U with
    | Except.error e => (h, r, some e)
    | Except.ok (n, p, Mn', Mp') =>
      let a1 := allocT h Mn'
      let a2 := allocT a1.1 Mp'
      (a2.1, { r with addrs := (r.addrs.set n a1.2).set p a2.2 }, none)
  | _ => (h, r, some "Can only handle 1 and 2 qubit operations")

/-- The `perform_measurement` loop at the object level: each iteration
allocates the renormalized site as a fresh buffer and rebinds slot `n`
(`state.M[n] = np.einsum(...)`, source line 439). -/
def measLoopRef [LinearOrderedField K] (sqrt : K → K) (choice : ℕ → List K → ℕ)
    (qid_shape : List ℕ) :
    ℕ → Heap K → MPSRef K → (ℕ → Cx K) → List ℕ → List ℕ →
      Heap K × MPSRef K × List ℕ
  | _, h, r, _, results, [] => (h, r, results)
  | i, h, r, V, results, q :: rest =>
    let site := (readState h r).M.getD q ones5
    let step := MPSState.measStepCore sqrt choice qid_shape i V site
    let p := allocT h step.2.1
    measLoopRef sqrt choice qid_shape (i + 1) p.1 { r with addrs := r.addrs.set q p.2 }
      step.2.2 (results ++ [step.1]) rest

/-- `perform_measurement` at the object level (source lines 407-452): with
collapse, mutate the invoked object; without, mutate a fresh deep copy and
hand the caller back its own untouched object. -/
def perform_measurement_ref [LinearOrderedField K] (sqrt : K → K)
    (choice : ℕ → List K → ℕ) (h : Heap K) (r : MPSRef K) (qs : List ℕ)
    (collapse : Bool) : Heap K × MPSRef K × List ℕ :=
  let qid_shape := qs.map fun q => (r.qubit_map.getD q default).dim
  if collapse then
    let V := MPSState.sum_up (readState h r) qs
    measLoopRef sqrt choice qid_shape 0 h r V [] qs
  else
    let p := copyRef h r
    let V := MPSState.sum_up (readState p.1 p.2) qs
    let out := measLoopRef sqrt choice qid_shape 0 p.1 p.2 V [] qs
    (out.1, r, out.2.2)

/-- Whether a fallible computation raised (`Except.error`). -/
def isErr {ε α : Type} : Except ε α → Bool
  | Except.error _ => true
  | Except.ok _ => false

/-- Adjacency of two qudit positions exactly as claim C5 states it: on a
1-D chain the mapped positions differ by exactly 1; on a 2-D grid the two
qudits are in the same row with columns differing by 1, or in the same
column with rows differing by 1. -/
def adjacentPred (s : MPSState K) (q0 q1 : ℕ) : Prop :=
  if s.is_2d_grid then
    ((s.qubit_map.getD q0 default).row = (s.qubit_map.getD q1 default).row ∧
      ((s.qubit_map.getD q0 default).col -
        (s.qubit_map.getD q1 default).col).natAbs = 1) ∨
    ((s.qubit_map.getD q0 default).col = (s.qubit_map.getD q1 default).col ∧
      ((s.qubit_map.getD q0 default).row -
        (s.qubit_map.getD q1 default).row).natAbs = 1)
  else ((q0 : ℤ) - (q1 : ℤ)).natAbs = 1

/-- A concrete exact square-root table used to instantiate the injected
`math.sqrt` on the rational inputs appearing in witnesses and
counterexamples (it agrees with the real square root wherever a theorem
below asks it to). -/
def qsqrt : ℚ → ℚ := fun x => if x = 1 then 1 else if x = 1 / 250000 then 1 / 500 else 0

/-! ## Supporting lemmas -/

theorem foldl_range_succ {α : Type} (g : α → ℕ → α) (a : α) (n : ℕ) :
    (List.range (n + 1)).foldl g a = g ((List.range n).foldl g a) n := by
  simp [List.range_succ]

theorem getD_set_ne {α : Type} (l : List α) {n m : ℕ} (x d : α) (h : n ≠ m) :
    (l.set n x).getD m d = l.getD m d := by
  simp [List.getD_eq_getElem?_getD, List.getElem?_set_ne h]

theorem getD_set_self {α : Type} (l : List α) {n : ℕ} (x d : α) (h : n < l.length) :
    (l.set n x).getD n d = x := by
  simp [List.getD_eq_getElem?_getD, List.getElem?_set_self, h]

theorem getD_map_range {α : Type} [Zero α] (n : ℕ) (f : ℕ → α) {i : ℕ} (h : i < n) :
    ((List.range n).map f).getD i 0 = f i := by
  simp [List.getD_eq_getElem?_getD, List.getElem?_map, List.getElem?_range h]

theorem getD_map_range_ge {α : Type} [Zero α] (n : ℕ) (f : ℕ → α) {i : ℕ} (h : n ≤ i) :
    ((List.range n).map f).getD i 0 = 0 := by
  have : ((List.range n).map f).length ≤ i := by simpa using h
  simp [List.getD_eq_getElem?_getD, List.getElem?_eq_none this]

theorem getD_map_of_lt {α : Type} [Zero α] (f : α → α) (l : List α) {i : ℕ}
    (h : i < l.length) : (l.map f).getD i 0 = f (l.getD i 0) := by
  rw [List.getD_eq_getElem?_getD, List.getElem?_map, List.getElem?_eq_getElem h]
  rw [List.getD_eq_getElem?_getD, List.getElem?_eq_getElem h]
  rfl

theorem sum_map_range {α : Type} [AddCommMonoid α] (n : ℕ) (f : ℕ → α) :
    ((List.range n).map f).sum = ∑ i ∈ Finset.range n, f i := by
  induction n with
  | zero => simp
  | succ k ih => simp [List.range_succ, Finset.sum_range_succ, ih]

section NkeepLemmas

variable [LinearOrderedField K]

/-- Characterisation of the truncation loop: index `i` is kept iff some
index at or beyond it satisfies the threshold test.  (For a descending
list this collapses to "index `i` itself satisfies the test".) -/
theorem lt_nkeepOf_iff (c : K) (L : List K) (i : ℕ) :
    i < MPSState.nkeepOf c L ↔
      ∃ k, i ≤ k ∧ k < L.length ∧ L.getD 0 0 * c ≤ L.getD k 0 := by
  have main : ∀ m j,
      (j < (List.range m).foldl
          (fun nk k => if L.getD 0 0 * c ≤ L.getD k 0 then k + 1 else nk) 0 ↔
        ∃ k, j ≤ k ∧ k < m ∧ L.getD 0 0 * c ≤ L.getD k 0) := by
    intro m
    induction m with
    | zero => intro j; simp
    | succ mm ih =>
      intro j
      rw [foldl_range_succ]
      by_cases hc : L.getD 0 0 * c ≤ L.getD mm 0
      · simp only [hc, if_true]
        constructor
        · intro hj; exact ⟨mm, by omega, by omega, hc⟩
        · rintro ⟨k, h1, h2, _⟩; omega
      · simp only [hc, if_false]
        rw [ih j]
        constructor
        · rintro ⟨k, h1, h2, h3⟩; exact ⟨k, h1, by omega, h3⟩
        · rintro ⟨k, h1, h2, h3⟩
          refine ⟨k, h1, ?_, h3⟩
          rcases Nat.lt_succ_iff_lt_or_eq.mp h2 with h | h
          · exact h
          · subst h; exact absurd h3 hc
  exact main L.length i

theorem nkeepOf_le (c : K) (L : List K) : MPSState.nkeepOf c L ≤ L.length := by
  by_contra h
  push_neg at h
  obtain ⟨k, h1, h2, _⟩ := (lt_nkeepOf_iff c L L.length).mp h
  omega

/-- The truncation loop always keeps at least the leading value: for a
non-empty `S` with `0 ≤ S[0]` and threshold `≤ 1`, the `i = 0` test
`S[0] ≥ S[0] * threshold` passes. -/
theorem nkeepOf_pos (c : K) (L : List K) (hne : L ≠ [])
    (h0 : 0 ≤ L.getD 0 0) (hc : c ≤ 1) : 0 < MPSState.nkeepOf c L := by
  refine (lt_nkeepOf_iff c L 0).mpr ⟨0, le_refl 0, ?_, ?_⟩
  · cases L with
    | nil => exact absurd rfl hne
    | cons x xs => simp
  · simpa using mul_le_of_le_one_right h0 hc

/-- Square-root monotonicity from the injected contract: if `0 ≤ sa`,
`0 ≤ sb`, `sa² = A`, `sb² = B` and `A ≤ B` then `sa ≤ sb`. -/
theorem sqrt_mono_of_sq {K : Type} [LinearOrderedField K] {sa sb A B : K}
    (hb : 0 ≤ sb) (hA : sa * sa = A) (hB : sb * sb = B)
    (hAB : A ≤ B) : sa ≤ sb := by
  nlinarith

end NkeepLemmas

section InitLemmas

variable [Field K]

/-- The digit loop only ever sees `initial_state` modulo the total
dimension: each digit is `s % d` and the running value is `s // d`. -/
theorem initLoop_mod (qm : List Qudit) (s : ℕ) :
    MPSState.initLoop (K := K) qm (s % MPSState.totalDim qm) =
      MPSState.initLoop qm s := by
  induction qm generalizing s with
  | nil => rfl
  | cons q qs ih =>
    simp only [MPSState.initLoop, MPSState.totalDim, List.map_cons, List.prod_cons]
    have h1 : s % (q.dim * (qs.map Qudit.dim).prod) % q.dim = s % q.dim :=
      Nat.mod_mod_of_dvd s (dvd_mul_right _ _)
    have h2 : s % (q.dim * (qs.map Qudit.dim).prod) / q.dim =
        s / q.dim % (qs.map Qudit.dim).prod :=
      Nat.mod_mul_right_div_self s q.dim _
    rw [h1, h2]
    exact congrArg _ (ih (s / q.dim))

end InitLemmas

/-! ## Claims -/

/-- Claim C3, counterexample: with two qubits (total dimension 4) and
initial basis integer 5 ≥ 4, construction does not fail — no failure path
exists in `__init__` — and instead silently wraps, producing exactly the
state built from `5 mod 4 = 1`. -/
theorem c3_counterexample :
    MPSState.totalDim [qd 2, qd 2] ≤ 5 ∧
    (MPSState.init [qd 2, qd 2] 5 : MPSState ℚ) = MPSState.init [qd 2, qd 2] 1 := by
  exact ⟨by decide, rfl⟩

/-- Claim C3, amended: construction never raises on an oversized initial
basis integer; it silently wraps, producing the state of
`initial_state mod (total Hilbert-space dimension)` (each digit is reduced
modulo its radix and the leftover quotient is discarded). -/
theorem c3_amended {K : Type} [Field K] (qm : List Qudit) (s : ℕ) :
    (MPSState.init qm s : MPSState K) =
      MPSState.init qm (s % MPSState.totalDim qm) := by
  simp only [MPSState.init]
  rw [initLoop_mod]

/-- Claim C4 (code_bug), evaluated at the failing input: for the qudit map
`[dim 2, dim 3]` and initial basis integer 4 (which fits the total
dimension 6), the claim — and the spec's data model — require position 0 to
hold the dimension-2 basis vector of digit 1 (since `4 = 1·3 + 1`), but the
code stores there the dimension-3 basis vector selecting digit 2: the
digit loop consumes radices in forward map order and then reverses the site
list, so each position receives the tensor built for the opposite end's
qudit. -/
theorem c4_code_bug :
    (MPSState.init [qd 2, qd 3] 4 : MPSState ℚ).M.getD 0 ones5 = basisSite 3 2 ∧
    (MPSState.init [qd 2, qd 3] 4 : MPSState ℚ).M.getD 1 ones5 = basisSite 2 0 ∧
    (MPSState.init [qd 2, qd 3] 4 : MPSState ℚ).M.getD 0 ones5 ≠ basisSite 2 1 := by
  refine ⟨rfl, rfl, fun h => ?_⟩
  exact absurd (congrArg Tensor5.e4 h) (by decide)

/-- Claim C1, counterexample: the truncation loop runs on the elementwise
square roots of the singular values, so with the state's threshold
`1e-3` and singular values `[1, 1/250000]` the code keeps both values
(`truncRank = 2`) even though `1/250000` lies strictly below
`threshold × largest = 1/1000`, which the claim says must be discarded.
The first conjunct certifies that the injected square-root table is a
genuine square root on these inputs; the second that `1e-3` is the
threshold every constructed state carries. -/
theorem c1_counterexample :
    (∀ x ∈ ([1, 1 / 250000] : List ℚ), 0 ≤ qsqrt x ∧ qsqrt x * qsqrt x = x) ∧
    (MPSState.init [qd 2] 0 : MPSState ℚ).threshold = 1 / 1000 ∧
    MPSState.truncRank (1 / 1000) qsqrt [1, 1 / 250000] = 2 ∧
    ([1, 1 / 250000] : List ℚ).getD 1 0 <
      (1 / 1000) * ([1, 1 / 250000] : List ℚ).getD 0 0 := by
  refine ⟨by norm_num [qsqrt], rfl, ?_, by norm_num⟩
  norm_num [MPSState.truncRank, MPSState.nkeepOf, qsqrt, List.range_succ]

/-- Claim C1, amended: after a two-qudit SVD the kept singular values are
exactly the prefix of the descending-sorted singular values whose members
each satisfy `sqrt(σᵢ) ≥ threshold × sqrt(σ₀)` — equivalently
`σᵢ ≥ threshold² × σ₀` — because the code takes elementwise square roots
before running the cutoff loop; everything below that (squared-threshold)
relative cutoff is discarded entirely. -/
theorem c1_amended {K : Type} [LinearOrderedField K] (t : K) (sqrt : K → K)
    (S : List K) (ht : 0 ≤ t)
    (hdesc : ∀ a b : ℕ, a ≤ b → b < S.length → S.getD b 0 ≤ S.getD a 0)
    (hsq : ∀ k, k < S.length →
      0 ≤ sqrt (S.getD k 0) ∧
        sqrt (S.getD k 0) * sqrt (S.getD k 0) = S.getD k 0)
    (i : ℕ) (hi : i < S.length) :
    i < MPSState.truncRank t sqrt S ↔ t * t * S.getD 0 0 ≤ S.getD i 0 := by
  have hlen : (S.map sqrt).length = S.length := by simp
  have hget : ∀ k, k < S.length → (S.map sqrt).getD k 0 = sqrt (S.getD k 0) :=
    fun k hk => getD_map_of_lt sqrt S hk
  have h0len : 0 < S.length := by omega
  have h0 := hsq 0 h0len
  have hii := hsq i hi
  constructor
  · intro hkeep
    obtain ⟨k, hik, hkl, hcond⟩ :=
      (lt_nkeepOf_iff t (S.map sqrt) i).mp hkeep
    rw [hlen] at hkl
    rw [hget 0 h0len, hget k hkl] at hcond
    have hki : S.getD k 0 ≤ S.getD i 0 := hdesc i k hik hkl
    have hk' := hsq k hkl
    have hmono : sqrt (S.getD k 0) ≤ sqrt (S.getD i 0) :=
      sqrt_mono_of_sq hii.1 hk'.2 hii.2 hki
    have hfin : sqrt (S.getD 0 0) * t ≤ sqrt (S.getD i 0) := le_trans hcond hmono
    nlinarith [hfin, h0.1, hii.1, h0.2, hii.2, mul_nonneg h0.1 ht]
  · intro hge
    refine (lt_nkeepOf_iff t (S.map sqrt) i).mpr ⟨i, le_refl i, by rwa [hlen], ?_⟩
    rw [hget 0 h0len, hget i hi]
    have hsa : (sqrt (S.getD 0 0) * t) * (sqrt (S.getD 0 0) * t) =
        t * t * S.getD 0 0 := by nlinarith [h0.2]
    exact sqrt_mono_of_sq hii.1 hsa hii.2 hge

/-- Witness for `c1_amended`: its hypotheses hold and its conclusion is
evaluated at `t = 1e-3`, `S = [1, 0]`, `i = 0` over `ℚ`. -/
theorem c1_amended_witness :
    ((0 : ℚ) ≤ 1 / 1000) ∧
    (∀ a b : ℕ, a ≤ b → b < ([1, 0] : List ℚ).length →
      ([1, 0] : List ℚ).getD b 0 ≤ ([1, 0] : List ℚ).getD a 0) ∧
    (∀ k, k < ([1, 0] : List ℚ).length →
      0 ≤ qsqrt (([1, 0] : List ℚ).getD k 0) ∧
        qsqrt (([1, 0] : List ℚ).getD k 0) * qsqrt (([1, 0] : List ℚ).getD k 0) =
          ([1, 0] : List ℚ).getD k 0) ∧
    (0 < ([1, 0] : List ℚ).length) ∧
    (0 < MPSState.truncRank (1 / 1000 : ℚ) qsqrt [1, 0] ↔
      (1 / 1000 : ℚ) * (1 / 1000) * ([1, 0] : List ℚ).getD 0 0 ≤
        ([1, 0] : List ℚ).getD 0 0) := by
  have ht : (0 : ℚ) ≤ 1 / 1000 := by norm_num
  have hdesc : ∀ a b : ℕ, a ≤ b → b < ([1, 0] : List ℚ).length →
      ([1, 0] : List ℚ).getD b 0 ≤ ([1, 0] : List ℚ).getD a 0 := by
    intro a b hab hb
    have hb' : b < 2 := by simpa using hb
    interval_cases b <;> interval_cases a <;> norm_num
  have hsq : ∀ k, k < ([1, 0] : List ℚ).length →
      0 ≤ qsqrt (([1, 0] : List ℚ).getD k 0) ∧
        qsqrt (([1, 0] : List ℚ).getD k 0) * qsqrt (([1, 0] : List ℚ).getD k 0) =
          ([1, 0] : List ℚ).getD k 0 := by
    intro k hk
    have hk' : k < 2 := by simpa using hk
    interval_cases k <;> norm_num [qsqrt]
  exact ⟨ht, hdesc, hsq, by decide,
    c1_amended (1 / 1000) qsqrt [1, 0] ht hdesc hsq 0 (by decide)⟩

/-- The adjacency check raises exactly on non-adjacent qudit pairs. -/
theorem adjacencyCheck_isErr {K : Type} [LinearOrderedField K] (s : MPSState K)
    (q0 q1 : ℕ) :
    isErr (MPSState.adjacencyCheck s q0 q1) = true ↔ ¬ adjacentPred s q0 q1 := by
  unfold MPSState.adjacencyCheck adjacentPred
  simp only [apply_ite (isErr (ε := String) (α := Bool))]
  split_ifs with h2d hrow hcol hcol2 hrow2 hlin
  · -- 2-D, same row, columns not one apart: error
    simp only [isErr, true_iff]
    rintro (⟨_, hc⟩ | ⟨_, hr⟩)
    · exact hcol hc
    · rw [hrow, sub_self] at hr; simp at hr
  · -- 2-D, same row, columns one apart: ok
    simp only [isErr, Bool.false_eq_true, false_iff, not_not]
    exact Or.inl ⟨hrow, not_not.mp hcol⟩
  · -- 2-D, rows differ, same column, rows not one apart: error
    simp only [isErr, true_iff]
    rintro (⟨hr, _⟩ | ⟨_, hr⟩)
    · exact hrow hr
    · exact hrow2 hr
  · -- 2-D, rows differ, same column, rows one apart: ok
    simp only [isErr, Bool.false_eq_true, false_iff, not_not]
    exact Or.inr ⟨hcol2, not_not.mp hrow2⟩
  · -- 2-D, rows and columns both differ: error
    simp only [isErr, true_iff]
    rintro (⟨hr, _⟩ | ⟨hc, _⟩)
    · exact hrow hr
    · exact hcol2 hc
  · -- 1-D, positions not one apart: error
    simp only [isErr, true_iff]
    exact hlin
  · -- 1-D, positions one apart: ok
    simp only [isErr, Bool.false_eq_true, false_iff, not_not]
    exact not_not.mp hlin

/-- The two-qudit engine raises exactly when the adjacency check does: the
SVD/split stage that follows a passing check never raises. -/
theorem applyTwoQubitCore_isErr {K : Type} [LinearOrderedField K] (sqrt : K → K)
    (svdX : ℕ → ℕ → Cx K) (svdS : List K) (svdY : ℕ → ℕ → Cx K)
    (s : MPSState K) (q0 q1 : ℕ) (U : ℕ → ℕ → Cx K) :
    isErr (MPSState.applyTwoQubitCore sqrt svdX svdS svdY s q0 q1 U) =
      isErr (MPSState.adjacencyCheck s q0 q1) := by
  unfold MPSState.applyTwoQubitCore
  cases hc : MPSState.adjacencyCheck s q0 q1 with
  | error e => rfl
  | ok b => cases b <;> simp [isErr]

/-- Claim C5 (confirmed): a two-qudit `apply_unitary` call fails (raises)
iff the two qudits are not adjacent under the active topology — on a 1-D
chain their mapped positions must differ by exactly 1; on a 2-D grid they
must be in the same row with columns differing by 1, or in the same column
with rows differing by 1 — and when it fails, the state (its Tensor Sites,
qudit map and threshold) is unchanged: the check precedes every
mutation. -/
theorem c5_two_qudit_topology {K : Type} [LinearOrderedField K] (sqrt : K → K)
    (svdX : ℕ → ℕ → Cx K) (svdS : List K) (svdY : ℕ → ℕ → Cx K)
    (h : Heap K) (r : MPSRef K) (q0 q1 : ℕ) (U : ℕ → ℕ → Cx K) :
    ((apply_unitary_ref sqrt svdX svdS svdY h r [q0, q1] U).2.2.isSome ↔
      ¬ adjacentPred (readState h r) q0 q1) ∧
    ((apply_unitary_ref sqrt svdX svdS svdY h r [q0, q1] U).2.2.isSome →
      readState (apply_unitary_ref sqrt svdX svdS svdY h r [q0, q1] U).1
          (apply_unitary_ref sqrt svdX svdS svdY h r [q0, q1] U).2.1 =
        readState h r) := by
  have hcore := applyTwoQubitCore_isErr sqrt svdX svdS svdY (readState h r) q0 q1 U
  have hadj := adjacencyCheck_isErr (readState h r) q0 q1
  cases hc : MPSState.applyTwoQubitCore sqrt svdX svdS svdY (readState h r) q0 q1 U with
  | error e =>
    rw [hc] at hcore
    simp only [isErr] at hcore
    refine ⟨?_, ?_⟩
    · simp only [apply_unitary_ref, hc, Option.isSome_some, true_iff]
      exact hadj.mp hcore.symm
    · intro _
      simp only [apply_unitary_ref, hc]
  | ok v =>
    obtain ⟨n, p, Mn', Mp'⟩ := v
    rw [hc] at hcore
    have hfalse : isErr (MPSState.adjacencyCheck (readState h r) q0 q1) = false := by
      rw [← hcore]; rfl
    refine ⟨?_, ?_⟩
    · simp only [apply_unitary_ref, hc, Option.isSome_none, Bool.false_eq_true,
        false_iff, not_not]
      by_contra hna
      rw [hadj.mpr hna] at hfalse
      exact Bool.noConfusion hfalse
    · intro hs
      simp only [apply_unitary_ref, hc] at hs
      simp at hs

/-- Shape of a successful two-qudit application: the returned positions are
the index-ordered pair, and every bond extent of each new site is either
the truncation rank or one of the corresponding old site's extents. -/
theorem applyTwoQubitCore_ok_shape {K : Type} [LinearOrderedField K] (sqrt : K → K)
    (svdX : ℕ → ℕ → Cx K) (svdS : List K) (svdY : ℕ → ℕ → Cx K)
    (s : MPSState K) (q0 q1 : ℕ) (U : ℕ → ℕ → Cx K)
    (n p : ℕ) (a b : Tensor5 K)
    (hok : MPSState.applyTwoQubitCore sqrt svdX svdS svdY s q0 q1 U =
      Except.ok (n, p, a, b)) :
    n = (if q0 < q1 then q0 else q1) ∧ p = (if q0 < q1 then q1 else q0) ∧
    (∀ x ∈ [a.e0, a.e1, a.e2, a.e3],
      x = MPSState.truncRank s.threshold sqrt svdS ∨
        x ∈ [(s.M.getD (if q0 < q1 then q0 else q1) ones5).e0,
             (s.M.getD (if q0 < q1 then q0 else q1) ones5).e1,
             (s.M.getD (if q0 < q1 then q0 else q1) ones5).e2,
             (s.M.getD (if q0 < q1 then q0 else q1) ones5).e3]) ∧
    (∀ x ∈ [b.e0, b.e1, b.e2, b.e3],
      x = MPSState.truncRank s.threshold sqrt svdS ∨
        x ∈ [(s.M.getD (if q0 < q1 then q1 else q0) ones5).e0,
             (s.M.getD (if q0 < q1 then q1 else q0) ones5).e1,
             (s.M.getD (if q0 < q1 then q1 else q0) ones5).e2,
             (s.M.getD (if q0 < q1 then q1 else q0) ones5).e3]) := by
  unfold MPSState.applyTwoQubitCore at hok
  cases hc : MPSState.adjacencyCheck s q0 q1 with
  | error e => rw [hc] at hok; exact Except.noConfusion hok
  | ok srow =>
    rw [hc] at hok
    cases srow with
    | false =>
      simp only [Bool.false_eq_true, if_false, Except.ok.injEq, Prod.mk.injEq] at hok
      obtain ⟨h1, h2, h3, h4⟩ := hok
      subst h1; subst h2; subst h3; subst h4
      refine ⟨rfl, rfl, ?_, ?_⟩ <;>
        · intro x hx
          simp only [List.mem_cons, List.not_mem_nil, or_false] at hx
          rcases hx with rfl | rfl | rfl | rfl <;> simp
    | true =>
      simp only [if_true, Except.ok.injEq, Prod.mk.injEq] at hok
      obtain ⟨h1, h2, h3, h4⟩ := hok
      subst h1; subst h2; subst h3; subst h4
      refine ⟨rfl, rfl, ?_, ?_⟩ <;>
        · intro x hx
          simp only [List.mem_cons, List.not_mem_nil, or_false] at hx
          rcases hx with rfl | rfl | rfl | rfl <;> simp

/-- Claim C6 (confirmed): for every successful two-qudit unitary
application on a state whose truncation threshold lies in `(0, 1]`, the SVD
truncation keeps at least one singular value (`nkeep ≥ 1`, since
`S[0] ≥ S[0] * threshold` always passes for a non-negative `S[0]`), so
every bond axis of the two resulting Tensor Sites has extent ≥ 1 —
provided, as the Tensor Site invariant guarantees, the original sites had
bond extents ≥ 1.  `svdS ≠ []` and `0 ≤ sqrt (svdS[0])` are the injected
SVD/sqrt contracts (a non-empty descending list of non-negative singular
values whose square roots are non-negative). -/
theorem c6_bond_extent_pos {K : Type} [LinearOrderedField K] (sqrt : K → K)
    (svdX : ℕ → ℕ → Cx K) (svdS : List K) (svdY : ℕ → ℕ → Cx K)
    (s : MPSState K) (q0 q1 : ℕ) (U : ℕ → ℕ → Cx K) (s' : MPSState K)
    (_hthr0 : 0 < s.threshold) (hthr1 : s.threshold ≤ 1)
    (hS : svdS ≠ []) (hS0 : 0 ≤ sqrt (svdS.getD 0 0))
    (hwf : ∀ t ∈ s.M, 1 ≤ t.e0 ∧ 1 ≤ t.e1 ∧ 1 ≤ t.e2 ∧ 1 ≤ t.e3)
    (hq0 : q0 < s.M.length) (hq1 : q1 < s.M.length) (hne : q0 ≠ q1)
    (hok : MPSState.apply_unitary sqrt svdX svdS svdY s [q0, q1] U =
      Except.ok s') :
    (1 ≤ (s'.M.getD (min q0 q1) ones5).e0 ∧
      1 ≤ (s'.M.getD (min q0 q1) ones5).e1 ∧
      1 ≤ (s'.M.getD (min q0 q1) ones5).e2 ∧
      1 ≤ (s'.M.getD (min q0 q1) ones5).e3) ∧
    (1 ≤ (s'.M.getD (max q0 q1) ones5).e0 ∧
      1 ≤ (s'.M.getD (max q0 q1) ones5).e1 ∧
      1 ≤ (s'.M.getD (max q0 q1) ones5).e2 ∧
      1 ≤ (s'.M.getD (max q0 q1) ones5).e3) := by
  have hmapne : svdS.map sqrt ≠ [] := by
    cases svdS with
    | nil => exact absurd rfl hS
    | cons x xs => simp
  have hlenS : 0 < svdS.length := by
    cases svdS with
    | nil => exact absurd rfl hS
    | cons x xs => simp
  have hget0 : (svdS.map sqrt).getD 0 0 = sqrt (svdS.getD 0 0) :=
    getD_map_of_lt sqrt svdS hlenS
  have hpos : 0 < MPSState.truncRank s.threshold sqrt svdS := by
    refine nkeepOf_pos s.threshold (svdS.map sqrt) hmapne ?_ hthr1
    rw [hget0]; exact hS0
  -- extract the core result from the successful call
  simp only [MPSState.apply_unitary] at hok
  cases hc : MPSState.applyTwoQubitCore sqrt svdX svdS svdY s q0 q1 U with
  | error e => rw [hc] at hok; exact Except.noConfusion hok
  | ok v =>
    obtain ⟨n, p, a, b⟩ := v
    rw [hc] at hok
    simp only [Except.ok.injEq] at hok
    have hs'M : s'.M = (s.M.set n a).set p b := by rw [← hok]
    obtain ⟨hn, hp, hA, hB⟩ :=
      applyTwoQubitCore_ok_shape sqrt svdX svdS svdY s q0 q1 U n p a b hc
    have hmin : n = min q0 q1 := by
      rw [hn, Nat.min_def]
      rcases Nat.lt_or_ge q0 q1 with hlt | hge
      · rw [if_pos hlt, if_pos (le_of_lt hlt)]
      · have h1 : ¬ q0 < q1 := not_lt.mpr hge
        have h2 : ¬ q0 ≤ q1 := fun hh => hne (le_antisymm hh hge)
        rw [if_neg h1, if_neg h2]
    have hmax : p = max q0 q1 := by
      rw [hp, Nat.max_def]
      rcases Nat.lt_or_ge q0 q1 with hlt | hge
      · rw [if_pos hlt, if_pos (le_of_lt hlt)]
      · have h1 : ¬ q0 < q1 := not_lt.mpr hge
        have h2 : ¬ q0 ≤ q1 := fun hh => hne (le_antisymm hh hge)
        rw [if_neg h1, if_neg h2]
    have hnlen : n < s.M.length := by rw [hn]; split_ifs <;> assumption
    have hplen : p < s.M.length := by rw [hp]; split_ifs <;> assumption
    have hpn : p ≠ n := by rw [hn, hp]; split_ifs with hh <;> omega
    have hgmin : s'.M.getD (min q0 q1) ones5 = a := by
      rw [hs'M, ← hmin, getD_set_ne _ _ _ hpn]
      exact getD_set_self s.M a ones5 hnlen
    have hgmax : s'.M.getD (max q0 q1) ones5 = b := by
      rw [hs'M, ← hmax]
      refine getD_set_self _ b ones5 ?_
      rw [List.length_set]; exact hplen
    have key : ∀ t : Tensor5 K, t ∈ s.M → ∀ x,
        (x = MPSState.truncRank s.threshold sqrt svdS ∨
          x ∈ [t.e0, t.e1, t.e2, t.e3]) → 1 ≤ x := by
      intro t ht x hx
      rcases hx with rfl | hx
      · omega
      · obtain ⟨w1, w2, w3, w4⟩ := hwf t ht
        simp only [List.mem_cons, List.not_mem_nil, or_false] at hx
        rcases hx with rfl | rfl | rfl | rfl <;> omega
    have hMn_mem : s.M.getD n ones5 ∈ s.M := by
      rw [List.getD_eq_getElem s.M ones5 hnlen]
      exact List.getElem_mem hnlen
    have hMp_mem : s.M.getD p ones5 ∈ s.M := by
      rw [List.getD_eq_getElem s.M ones5 hplen]
      exact List.getElem_mem hplen
    rw [hgmin, hgmax]
    constructor
    · refine ⟨?_, ?_, ?_, ?_⟩ <;>
        · refine key _ hMn_mem _ ?_
          rw [hn]
          exact hA _ (by simp)
    · refine ⟨?_, ?_, ?_, ?_⟩ <;>
        · refine key _ hMp_mem _ ?_
          rw [hp]
          exact hB _ (by simp)

/-- Witness for `c6_bond_extent_pos`: its hypotheses hold and its
conclusion is evaluated on a concrete two-qubit chain state with the
injected SVD data `svdS = [1]`. -/
theorem c6_bond_extent_pos_witness :
    (0 < (MPSState.init [qd 2, qd 2] 0 : MPSState ℚ).threshold) ∧
    ((MPSState.init [qd 2, qd 2] 0 : MPSState ℚ).threshold ≤ 1) ∧
    (([1] : List ℚ) ≠ []) ∧
    ((0 : ℚ) ≤ qsqrt (([1] : List ℚ).getD 0 0)) ∧
    (∀ t ∈ (MPSState.init [qd 2, qd 2] 0 : MPSState ℚ).M,
      1 ≤ t.e0 ∧ 1 ≤ t.e1 ∧ 1 ≤ t.e2 ∧ 1 ≤ t.e3) ∧
    (0 < (MPSState.init [qd 2, qd 2] 0 : MPSState ℚ).M.length) ∧
    (1 < (MPSState.init [qd 2, qd 2] 0 : MPSState ℚ).M.length) ∧
    ((0 : ℕ) ≠ 1) ∧
    (MPSState.apply_unitary qsqrt (fun _ _ => 0) [1] (fun _ _ => 0)
        (MPSState.init [qd 2, qd 2] 0 : MPSState ℚ) [0, 1] (fun _ _ => 0) =
      Except.ok ((MPSState.apply_unitary qsqrt (fun _ _ => 0) [1] (fun _ _ => 0)
          (MPSState.init [qd 2, qd 2] 0 : MPSState ℚ) [0, 1]
          (fun _ _ => 0)).toOption.getD (MPSState.init [] 0))) ∧
    ((1 ≤ (((MPSState.apply_unitary qsqrt (fun _ _ => 0) [1] (fun _ _ => 0)
          (MPSState.init [qd 2, qd 2] 0 : MPSState ℚ) [0, 1]
          (fun _ _ => 0)).toOption.getD (MPSState.init [] 0)).M.getD
            (min 0 1) ones5).e0 ∧
      1 ≤ (((MPSState.apply_unitary qsqrt (fun _ _ => 0) [1] (fun _ _ => 0)
          (MPSState.init [qd 2, qd 2] 0 : MPSState ℚ) [0, 1]
          (fun _ _ => 0)).toOption.getD (MPSState.init [] 0)).M.getD
            (min 0 1) ones5).e1 ∧
      1 ≤ (((MPSState.apply_unitary qsqrt (fun _ _ => 0) [1] (fun _ _ => 0)
          (MPSState.init [qd 2, qd 2] 0 : MPSState ℚ) [0, 1]
          (fun _ _ => 0)).toOption.getD (MPSState.init [] 0)).M.getD
            (min 0 1) ones5).e2 ∧
      1 ≤ (((MPSState.apply_unitary qsqrt (fun _ _ => 0) [1] (fun _ _ => 0)
          (MPSState.init [qd 2, qd 2] 0 : MPSState ℚ) [0, 1]
          (fun _ _ => 0)).toOption.getD (MPSState.init [] 0)).M.getD
            (min 0 1) ones5).e3) ∧
     (1 ≤ (((MPSState.apply_unitary qsqrt (fun _ _ => 0) [1] (fun _ _ => 0)
          (MPSState.init [qd 2, qd 2] 0 : MPSState ℚ) [0, 1]
          (fun _ _ => 0)).toOption.getD (MPSState.init [] 0)).M.getD
            (max 0 1) ones5).e0 ∧
      1 ≤ (((MPSState.apply_unitary qsqrt (fun _ _ => 0) [1] (fun _ _ => 0)
          (MPSState.init [qd 2, qd 2] 0 : MPSState ℚ) [0, 1]
          (fun _ _ => 0)).toOption.getD (MPSState.init [] 0)).M.getD
            (max 0 1) ones5).e1 ∧
      1 ≤ (((MPSState.apply_unitary qsqrt (fun _ _ => 0) [1] (fun _ _ => 0)
          (MPSState.init [qd 2, qd 2] 0 : MPSState ℚ) [0, 1]
          (fun _ _ => 0)).toOption.getD (MPSState.init [] 0)).M.getD
            (max 0 1) ones5).e2 ∧
      1 ≤ (((MPSState.apply_unitary qsqrt (fun _ _ => 0) [1] (fun _ _ => 0)
          (MPSState.init [qd 2, qd 2] 0 : MPSState ℚ) [0, 1]
          (fun _ _ => 0)).toOption.getD (MPSState.init [] 0)).M.getD
            (max 0 1) ones5).e3)) := by
  have h1 : 0 < (MPSState.init [qd 2, qd 2] 0 : MPSState ℚ).threshold := by
    norm_num [MPSState.init]
  have h2 : (MPSState.init [qd 2, qd 2] 0 : MPSState ℚ).threshold ≤ 1 := by
    norm_num [MPSState.init]
  have h3 : ([1] : List ℚ) ≠ [] := by simp
  have h4 : (0 : ℚ) ≤ qsqrt (([1] : List ℚ).getD 0 0) := by norm_num [qsqrt]
  have h5 : ∀ t ∈ (MPSState.init [qd 2, qd 2] 0 : MPSState ℚ).M,
      1 ≤ t.e0 ∧ 1 ≤ t.e1 ∧ 1 ≤ t.e2 ∧ 1 ≤ t.e3 := by
    intro t ht
    rw [show (MPSState.init [qd 2, qd 2] 0 : MPSState ℚ).M =
      [basisSite 2 0, basisSite 2 0] from rfl] at ht
    simp only [List.mem_cons, List.not_mem_nil, or_false] at ht
    rcases ht with rfl | rfl <;> exact ⟨le_refl 1, le_refl 1, le_refl 1, le_refl 1⟩
  have h6 : 0 < (MPSState.init [qd 2, qd 2] 0 : MPSState ℚ).M.length := by
    rw [show (MPSState.init [qd 2, qd 2] 0 : MPSState ℚ).M =
      [basisSite 2 0, basisSite 2 0] from rfl]
    simp
  have h7 : 1 < (MPSState.init [qd 2, qd 2] 0 : MPSState ℚ).M.length := by
    rw [show (MPSState.init [qd 2, qd 2] 0 : MPSState ℚ).M =
      [basisSite 2 0, basisSite 2 0] from rfl]
    simp
  have h8 : (0 : ℕ) ≠ 1 := by decide
  have h9 : MPSState.apply_unitary qsqrt (fun _ _ => 0) [1] (fun _ _ => 0)
      (MPSState.init [qd 2, qd 2] 0 : MPSState ℚ) [0, 1] (fun _ _ => 0) =
      Except.ok ((MPSState.apply_unitary qsqrt (fun _ _ => 0) [1] (fun _ _ => 0)
        (MPSState.init [qd 2, qd 2] 0 : MPSState ℚ) [0, 1]
        (fun _ _ => 0)).toOption.getD (MPSState.init [] 0)) := rfl
  exact ⟨h1, h2, h3, h4, h5, h6, h7, h8, h9,
    c6_bond_extent_pos qsqrt (fun _ _ => 0) [1] (fun _ _ => 0)
      (MPSState.init [qd 2, qd 2] 0) 0 1 (fun _ _ => 0) _
      h1 h2 h3 h4 h5 h6 h7 h8 h9⟩

/-- Claim C2 (code_bug), evaluated at the failing input: measuring the
qudit list with dimensions `[2, 3]`, the `collapser` built by the loop at
source lines 441-446 has 4 columns at step `i = 0` (and 9 at step `i = 1`)
because the identity factors are built as `np.eye(qid_shape[i])` — sized by
the qudit currently being measured — whereas the running joint tensor has
`2 × 3 = 6` entries and the claim's operator (projector at axis `i`,
identity of each other qudit's own dimension elsewhere) is `6 × 6`; the
`np.einsum('ij,j->i', collapser, M)` contraction is therefore
dimensionally impossible. -/
theorem c2_code_bug :
    (MPSState.collapserMat ([2, 3] : List ℕ)
        0 (MPSState.renormalizer qsqrt 2 0 (1 : ℚ))).cols = 4 ∧
    (MPSState.collapserMat ([2, 3] : List ℕ)
        1 (MPSState.renormalizer qsqrt 3 0 (1 : ℚ))).cols = 9 ∧
    ([2, 3] : List ℕ).prod = 6 ∧ (4 : ℕ) ≠ 6 ∧ (9 : ℕ) ≠ 6 := by
  exact ⟨rfl, rfl, rfl, by decide, by decide⟩

/-! ### Heap-extension lemmas for the object-level model -/

theorem allocT_preserves (h : Heap K) (t : Tensor5 K) {a : ℕ} (ha : a < h.next) :
    (allocT h t).1.mem a = h.mem a := by
  simp only [allocT]
  rw [if_neg (by omega)]

theorem allocT_next (h : Heap K) (t : Tensor5 K) :
    (allocT h t).1.next = h.next + 1 := rfl

theorem allocList_next_le (h : Heap K) (ts : List (Tensor5 K)) :
    h.next ≤ (allocList h ts).1.next := by
  induction ts generalizing h with
  | nil => exact le_refl _
  | cons t ts ih =>
    simp only [allocList]
    exact le_trans (by rw [allocT_next]; omega) (ih (allocT h t).1)

theorem allocList_preserves (h : Heap K) (ts : List (Tensor5 K)) {a : ℕ}
    (ha : a < h.next) : (allocList h ts).1.mem a = h.mem a := by
  induction ts generalizing h with
  | nil => rfl
  | cons t ts ih =>
    simp only [allocList]
    rw [ih (allocT h t).1 (by rw [allocT_next]; omega)]
    exact allocT_preserves h t ha

theorem allocList_addrs_range (h : Heap K) (ts : List (Tensor5 K)) :
    ∀ a ∈ (allocList h ts).2, h.next ≤ a ∧ a < (allocList h ts).1.next := by
  induction ts generalizing h with
  | nil => intro a ha; simp [allocList] at ha
  | cons t ts ih =>
    intro a ha
    simp only [allocList, List.mem_cons] at ha
    simp only [allocList]
    have hn : (allocT h t).1.next = h.next + 1 := rfl
    have hle := allocList_next_le (allocT h t).1 ts
    rcases ha with rfl | ha
    · have he : (allocT h t).2 = h.next := rfl
      rw [he]
      omega
    · have := ih (allocT h t).1 a ha
      omega

theorem allocList_reads (h : Heap K) (ts : List (Tensor5 K)) :
    (allocList h ts).2.map (allocList h ts).1.mem = ts := by
  induction ts generalizing h with
  | nil => rfl
  | cons t ts ih =>
    simp only [allocList, List.map_cons]
    have hhead : (allocList (allocT h t).1 ts).1.mem (allocT h t).2 = t := by
      have h2 : (allocT h t).2 = h.next := rfl
      rw [allocList_preserves (allocT h t).1 ts
        (by rw [allocT_next, h2]; exact Nat.lt_succ_self _), h2]
      simp [allocT]
    rw [hhead, ih (allocT h t).1]

/-- Reads of a state object are unaffected by heap changes outside its own
addresses. -/
theorem readState_congr (h h' : Heap K) (r : MPSRef K)
    (hmem : ∀ a ∈ r.addrs, h'.mem a = h.mem a) :
    readState h' r = readState h r := by
  unfold readState
  rw [List.map_congr_left hmem]

/-- The measurement loop only allocates: the heap grows and every address
already allocated keeps its contents. -/
theorem measLoopRef_extends [LinearOrderedField K] (sqrt : K → K)
    (choice : ℕ → List K → ℕ) (qid_shape : List ℕ) (qs : List ℕ) :
    ∀ (i : ℕ) (h : Heap K) (r : MPSRef K) (V : ℕ → Cx K) (results : List ℕ),
      h.next ≤ (measLoopRef sqrt choice qid_shape i h r V results qs).1.next ∧
      ∀ a < h.next,
        (measLoopRef sqrt choice qid_shape i h r V results qs).1.mem a = h.mem a := by
  induction qs with
  | nil => intro i h r V results; exact ⟨le_refl _, fun a _ => rfl⟩
  | cons q rest ih =>
    intro i h r V results
    simp only [measLoopRef]
    have hn : (allocT h (MPSState.measStepCore sqrt choice qid_shape i V
        ((readState h r).M.getD q ones5)).2.1).1.next = h.next + 1 := rfl
    obtain ⟨hle, hmem⟩ := ih (i + 1)
      (allocT h (MPSState.measStepCore sqrt choice qid_shape i V
        ((readState h r).M.getD q ones5)).2.1).1
      { r with addrs := r.addrs.set q (allocT h (MPSState.measStepCore sqrt choice
          qid_shape i V ((readState h r).M.getD q ones5)).2.1).2 }
      (MPSState.measStepCore sqrt choice qid_shape i V
        ((readState h r).M.getD q ones5)).2.2
      (results ++ [(MPSState.measStepCore sqrt choice qid_shape i V
        ((readState h r).M.getD q ones5)).1])
    constructor
    · omega
    · intro a ha
      rw [hmem a (by omega)]
      exact allocT_preserves h _ ha

/-- `apply_unitary` only allocates. -/
theorem apply_unitary_ref_extends [LinearOrderedField K] (sqrt : K → K)
    (svdX : ℕ → ℕ → Cx K) (svdS : List K) (svdY : ℕ → ℕ → Cx K)
    (h : Heap K) (r : MPSRef K) (qs : List ℕ) (U : ℕ → ℕ → Cx K) :
    h.next ≤ (apply_unitary_ref sqrt svdX svdS svdY h r qs U).1.next ∧
    ∀ a < h.next,
      (apply_unitary_ref sqrt svdX svdS svdY h r qs U).1.mem a = h.mem a := by
  rcases qs with _ | ⟨q, _ | ⟨q1, _ | ⟨q2, rest⟩⟩⟩
  · exact ⟨le_refl _, fun a _ => rfl⟩
  · simp only [apply_unitary_ref]
    exact ⟨by rw [allocT_next]; omega, fun a ha => allocT_preserves h _ ha⟩
  · simp only [apply_unitary_ref]
    cases hc : MPSState.applyTwoQubitCore sqrt svdX svdS svdY (readState h r) q q1 U with
    | error e => exact ⟨le_refl _, fun a _ => rfl⟩
    | ok v =>
      obtain ⟨n, p, a, b⟩ := v
      refine ⟨?_, ?_⟩
      · rw [allocT_next, allocT_next]; omega
      · intro x hx
        rw [allocT_preserves _ _ (by rw [allocT_next]; omega),
          allocT_preserves _ _ hx]
  · exact ⟨le_refl _, fun a _ => rfl⟩

/-- Claim C7 (confirmed): `perform_measurement` with
`collapse_state_vector=False` leaves the invoked state completely
unchanged — the object handed back to the caller is the invoked object
itself, and its denoted value (every Tensor Site, the qudit index map, the
threshold, the topology flag) is identical before and after — all mutation
being confined to the internal deep copy, which is discarded. -/
theorem c7_no_collapse_frame {K : Type} [LinearOrderedField K] (sqrt : K → K)
    (choice : ℕ → List K → ℕ) (h : Heap K) (r : MPSRef K) (qs : List ℕ)
    (hwf : ∀ a ∈ r.addrs, a < h.next) :
    (perform_measurement_ref sqrt choice h r qs false).2.1 = r ∧
    readState (perform_measurement_ref sqrt choice h r qs false).1
        (perform_measurement_ref sqrt choice h r qs false).2.1 =
      readState h r := by
  constructor
  · simp [perform_measurement_ref]
  · simp only [perform_measurement_ref, Bool.false_eq_true, if_false]
    apply readState_congr
    intro a ha
    have h1 := allocList_next_le h (r.addrs.map h.mem)
    have h2 := (measLoopRef_extends sqrt choice
      (qs.map fun q => (r.qubit_map.getD q default).dim) qs 0
      (copyRef h r).1 (copyRef h r).2
      (MPSState.sum_up (readState (copyRef h r).1 (copyRef h r).2) qs) []).2
    rw [h2 a (by have := hwf a ha; simp only [copyRef]; omega)]
    exact allocList_preserves h _ (hwf a ha)

/-- Witness for `c7_no_collapse_frame`: its hypothesis holds and its
conclusion is evaluated on a concrete one-qubit state object. -/
theorem c7_no_collapse_frame_witness :
    (∀ a ∈ ([0] : List ℕ), a < (⟨1, fun _ => ones5⟩ : Heap ℚ).next) ∧
    ((perform_measurement_ref qsqrt (fun _ _ => 0) (⟨1, fun _ => ones5⟩ : Heap ℚ)
        ⟨[qd 2], [0], 1 / 1000, false⟩ [0] false).2.1 =
      ⟨[qd 2], [0], 1 / 1000, false⟩ ∧
    readState (perform_measurement_ref qsqrt (fun _ _ => 0)
          (⟨1, fun _ => ones5⟩ : Heap ℚ) ⟨[qd 2], [0], 1 / 1000, false⟩ [0] false).1
        (perform_measurement_ref qsqrt (fun _ _ => 0) (⟨1, fun _ => ones5⟩ : Heap ℚ)
          ⟨[qd 2], [0], 1 / 1000, false⟩ [0] false).2.1 =
      readState (⟨1, fun _ => ones5⟩ : Heap ℚ) ⟨[qd 2], [0], 1 / 1000, false⟩) := by
  have hwf : ∀ a ∈ ([0] : List ℕ), a < (⟨1, fun _ => ones5⟩ : Heap ℚ).next := by
    intro a ha
    simp only [List.mem_cons, List.not_mem_nil, or_false] at ha
    subst ha
    exact Nat.zero_lt_one
  exact ⟨hwf, c7_no_collapse_frame qsqrt (fun _ _ => 0) _ _ [0] hwf⟩

/-- Claim C8 (confirmed): `copy()` returns a state that is value-equal to
the original (same qudit index map, same tensor contents, same threshold)
and shares no tensor buffer with it; any subsequent mutation of the copy —
unitary application or collapsing measurement — leaves the original's
denoted value (in particular every Tensor Site) unchanged, and vice
versa. -/
theorem c8_copy_independent {K : Type} [LinearOrderedField K] (h : Heap K)
    (r : MPSRef K) (hwf : ∀ a ∈ r.addrs, a < h.next) :
    readState (copyRef h r).1 (copyRef h r).2 = readState h r ∧
    readState (copyRef h r).1 r = readState h r ∧
    (∀ a ∈ (copyRef h r).2.addrs, a ∉ r.addrs) ∧
    (∀ (sqrt : K → K) (svdX : ℕ → ℕ → Cx K) (svdS : List K)
        (svdY : ℕ → ℕ → Cx K) (qs : List ℕ) (U : ℕ → ℕ → Cx K),
      readState (apply_unitary_ref sqrt svdX svdS svdY (copyRef h r).1
          (copyRef h r).2 qs U).1 r = readState h r) ∧
    (∀ (sqrt : K → K) (choice : ℕ → List K → ℕ) (qs : List ℕ),
      readState (perform_measurement_ref sqrt choice (copyRef h r).1
          (copyRef h r).2 qs true).1 r = readState h r) ∧
    (∀ (sqrt : K → K) (svdX : ℕ → ℕ → Cx K) (svdS : List K)
        (svdY : ℕ → ℕ → Cx K) (qs : List ℕ) (U : ℕ → ℕ → Cx K),
      readState (apply_unitary_ref sqrt svdX svdS svdY (copyRef h r).1 r qs U).1
          (copyRef h r).2 = readState (copyRef h r).1 (copyRef h r).2) ∧
    (∀ (sqrt : K → K) (choice : ℕ → List K → ℕ) (qs : List ℕ),
      readState (perform_measurement_ref sqrt choice (copyRef h r).1 r qs true).1
          (copyRef h r).2 = readState (copyRef h r).1 (copyRef h r).2) := by
  have hnextle : h.next ≤ (copyRef h r).1.next := allocList_next_le h _
  have hpres : ∀ a < h.next, (copyRef h r).1.mem a = h.mem a :=
    fun a ha => allocList_preserves h _ ha
  have hrange := allocList_addrs_range h (r.addrs.map h.mem)
  have hcwf : ∀ a ∈ (copyRef h r).2.addrs, a < (copyRef h r).1.next :=
    fun a ha => (hrange a ha).2
  refine ⟨?_, ?_, ?_, ?_, ?_, ?_, ?_⟩
  · -- the copy denotes the same value
    show readState (allocList h (r.addrs.map h.mem)).1
        ⟨r.qubit_map, (allocList h (r.addrs.map h.mem)).2, r.threshold, r.is_2d_grid⟩ =
      readState h r
    unfold readState
    simp only
    rw [allocList_reads h (r.addrs.map h.mem)]
  · exact readState_congr h _ r fun a ha => hpres a (hwf a ha)
  · intro a ha hmem
    exact absurd (hrange a ha).1 (by have := hwf a hmem; omega)
  · intro sqrt svdX svdS svdY qs U
    have hext := apply_unitary_ref_extends sqrt svdX svdS svdY (copyRef h r).1
      (copyRef h r).2 qs U
    refine readState_congr h _ r fun a ha => ?_
    rw [hext.2 a (by have := hwf a ha; omega)]
    exact hpres a (hwf a ha)
  · intro sqrt choice qs
    simp only [perform_measurement_ref, if_true]
    have hext := measLoopRef_extends sqrt choice
      (qs.map fun q => ((copyRef h r).2.qubit_map.getD q default).dim) qs 0
      (copyRef h r).1 (copyRef h r).2
      (MPSState.sum_up (readState (copyRef h r).1 (copyRef h r).2) qs) []
    refine readState_congr h _ r fun a ha => ?_
    rw [hext.2 a (by have := hwf a ha; omega)]
    exact hpres a (hwf a ha)
  · intro sqrt svdX svdS svdY qs U
    have hext := apply_unitary_ref_extends sqrt svdX svdS svdY (copyRef h r).1
      r qs U
    exact readState_congr _ _ _ fun a ha => hext.2 a (hcwf a ha)
  · intro sqrt choice qs
    simp only [perform_measurement_ref, if_true]
    have hext := measLoopRef_extends sqrt choice
      (qs.map fun q => (r.qubit_map.getD q default).dim) qs 0
      (copyRef h r).1 r
      (MPSState.sum_up (readState (copyRef h r).1 r) qs) []
    exact readState_congr _ _ _ fun a ha => hext.2 a (hcwf a ha)

/-- Witness for `c8_copy_independent`: its hypothesis holds and its
conclusion is evaluated on a concrete one-qubit state object. -/
theorem c8_copy_independent_witness :
    (∀ a ∈ ([0] : List ℕ), a < (⟨1, fun _ => ones5⟩ : Heap ℚ).next) ∧
    (readState (copyRef (⟨1, fun _ => ones5⟩ : Heap ℚ)
          ⟨[qd 2], [0], 1 / 1000, false⟩).1
        (copyRef (⟨1, fun _ => ones5⟩ : Heap ℚ) ⟨[qd 2], [0], 1 / 1000, false⟩).2 =
      readState (⟨1, fun _ => ones5⟩ : Heap ℚ) ⟨[qd 2], [0], 1 / 1000, false⟩ ∧
    ∀ a ∈ (copyRef (⟨1, fun _ => ones5⟩ : Heap ℚ)
        ⟨[qd 2], [0], 1 / 1000, false⟩).2.addrs, a ∉ ([0] : List ℕ)) := by
  have hwf : ∀ a ∈ ([0] : List ℕ), a < (⟨1, fun _ => ones5⟩ : Heap ℚ).next := by
    intro a ha
    simp only [List.mem_cons, List.not_mem_nil, or_false] at ha
    subst ha
    exact Nat.zero_lt_one
  have hmain := c8_copy_independent (⟨1, fun _ => ones5⟩ : Heap ℚ)
    ⟨[qd 2], [0], 1 / 1000, false⟩ hwf
  exact ⟨hwf, hmain.1, hmain.2.2.1⟩

/-- Entries of a `stepProbs` list are squared moduli, hence non-negative;
the list out-of-range default is 0. -/
theorem stepProbs_getD_nonneg {K : Type} [LinearOrderedField K]
    (qid_shape : List ℕ) (i : ℕ) (V : ℕ → Cx K) (j : ℕ) :
    0 ≤ (MPSState.stepProbs qid_shape i V).getD j 0 := by
  by_cases hj : j < qid_shape.getD i 0
  · rw [MPSState.stepProbs, getD_map_range _ _ hj]
    exact Cx.normSq_nonneg _
  · rw [MPSState.stepProbs, getD_map_range_ge _ _ (by omega)]

theorem stepProbs_sum_nonneg {K : Type} [LinearOrderedField K]
    (qid_shape : List ℕ) (i : ℕ) (V : ℕ → Cx K) :
    0 ≤ (MPSState.stepProbs qid_shape i V).sum := by
  refine List.sum_nonneg ?_
  intro x hx
  obtain ⟨j, _, rfl⟩ := List.mem_map.mp hx
  exact Cx.normSq_nonneg _

/-- A positive renormalized weight forces a positive unnormalized one:
`probs[result] / sum(probs) > 0` with `probs[result] ≥ 0` and
`sum(probs) ≥ 0` gives `probs[result] > 0`. -/
theorem normProbs_pos_imp {K : Type} [LinearOrderedField K]
    (qid_shape : List ℕ) (i : ℕ) (V : ℕ → Cx K) (result : ℕ)
    (hchoice : 0 <
      (MPSState.normProbs (MPSState.stepProbs qid_shape i V)).getD result 0) :
    0 < (MPSState.stepProbs qid_shape i V).getD result 0 := by
  set P := MPSState.stepProbs qid_shape i V with hP
  by_cases hlt : result < P.length
  · have hmap : (MPSState.normProbs P).getD result 0 = P.getD result 0 / P.sum :=
      getD_map_of_lt (fun x => x / P.sum) P hlt
    rw [hmap] at hchoice
    rcases div_pos_iff.mp hchoice with ⟨hp, _⟩ | ⟨hp, _⟩
    · exact hp
    · exact absurd hp (not_lt.mpr (stepProbs_getD_nonneg qid_shape i V result))
  · have : (MPSState.normProbs P).getD result 0 = 0 := by
      have hlen : (MPSState.normProbs P).length ≤ result := by
        simpa [MPSState.normProbs] using not_lt.mp hlt
      simp [List.getD_eq_getElem?_getD, List.getElem?_eq_none hlen]
    rw [this] at hchoice
    exact absurd hchoice (lt_irrefl 0)

/-- Claim C10 (confirmed): at any iteration of `perform_measurement`, if
the injected random source's weighted choice returned an index whose
supplied (renormalized) weight is strictly positive, then the sampled
outcome's unnormalized probability `probs[result]` is strictly positive;
hence — for any square root that is positive on positive inputs, as
`math.sqrt` is — the rescale divisor `sqrt(probs[result])` is nonzero and
the `renormalizer` entry `1 / sqrt(probs[result])` of the
projection-and-rescale operator is well defined and nonzero (no division
by zero, no NaN). -/
theorem c10_rescale_divisor_nonzero {K : Type} [LinearOrderedField K]
    (sqrt : K → K) (qid_shape : List ℕ) (i : ℕ) (V : ℕ → Cx K) (result : ℕ)
    (hchoice : 0 <
      (MPSState.normProbs (MPSState.stepProbs qid_shape i V)).getD result 0)
    (hsq : 0 < (MPSState.stepProbs qid_shape i V).getD result 0 →
      0 < sqrt ((MPSState.stepProbs qid_shape i V).getD result 0)) :
    0 < (MPSState.stepProbs qid_shape i V).getD result 0 ∧
    sqrt ((MPSState.stepProbs qid_shape i V).getD result 0) ≠ 0 ∧
    (MPSState.renormalizer sqrt (qid_shape.getD i 0) result
        ((MPSState.stepProbs qid_shape i V).getD result 0)).f result result ≠ 0 := by
  have hpos := normProbs_pos_imp qid_shape i V result hchoice
  have hsqpos := hsq hpos
  refine ⟨hpos, ne_of_gt hsqpos, ?_⟩
  simp only [MPSState.renormalizer, and_self, if_true]
  exact one_div_ne_zero (ne_of_gt hsqpos)

/-- Witness for `c10_rescale_divisor_nonzero`: its hypotheses hold and its
conclusion is evaluated on the concrete reduced tensor `V = e₀` of a single
measured qubit, where `probs = [1, 0]`. -/
theorem c10_rescale_divisor_nonzero_witness :
    (0 < (MPSState.normProbs (MPSState.stepProbs ([2] : List ℕ) 0
        (fun z => if z = 0 then (1 : Cx ℚ) else 0))).getD 0 0) ∧
    ((0 : ℚ) < (MPSState.stepProbs ([2] : List ℕ) 0
        (fun z => if z = 0 then (1 : Cx ℚ) else 0)).getD 0 0 →
      0 < qsqrt ((MPSState.stepProbs ([2] : List ℕ) 0
        (fun z => if z = 0 then (1 : Cx ℚ) else 0)).getD 0 0)) ∧
    (0 < (MPSState.stepProbs ([2] : List ℕ) 0
        (fun z => if z = 0 then (1 : Cx ℚ) else 0)).getD 0 0 ∧
      qsqrt ((MPSState.stepProbs ([2] : List ℕ) 0
        (fun z => if z = 0 then (1 : Cx ℚ) else 0)).getD 0 0) ≠ 0 ∧
      (MPSState.renormalizer qsqrt (([2] : List ℕ).getD 0 0) 0
          ((MPSState.stepProbs ([2] : List ℕ) 0
            (fun z => if z = 0 then (1 : Cx ℚ) else 0)).getD 0 0)).f 0 0 ≠ 0) := by
  have hP : MPSState.stepProbs ([2] : List ℕ) 0
      (fun z => if z = 0 then (1 : Cx ℚ) else 0) = [1, 0] := by
    rw [MPSState.stepProbs]
    rw [show ([2] : List ℕ).getD 0 0 = 2 from rfl]
    rw [show List.range 2 = [0, 1] from rfl]
    simp only [List.map_cons, List.map_nil]
    rw [MPSState.tracedOut, MPSState.tracedOut]
    rw [show (Finset.range (MPSState.suffProd [2] 0)).filter
      (fun z => MPSState.digitOf [2] 0 z = 0) = {0} by decide]
    rw [show (Finset.range (MPSState.suffProd [2] 0)).filter
      (fun z => MPSState.digitOf [2] 0 z = 1) = {1} by decide]
    simp [Cx.normSq]
  have hchoice : 0 < (MPSState.normProbs (MPSState.stepProbs ([2] : List ℕ) 0
      (fun z => if z = 0 then (1 : Cx ℚ) else 0))).getD 0 0 := by
    rw [hP]
    norm_num [MPSState.normProbs]
  have hsq : (0 : ℚ) < (MPSState.stepProbs ([2] : List ℕ) 0
      (fun z => if z = 0 then (1 : Cx ℚ) else 0)).getD 0 0 →
      0 < qsqrt ((MPSState.stepProbs ([2] : List ℕ) 0
        (fun z => if z = 0 then (1 : Cx ℚ) else 0)).getD 0 0) := by
    rw [hP]
    intro _
    norm_num [qsqrt]
  exact ⟨hchoice, hsq,
    c10_rescale_divisor_nonzero qsqrt [2] 0
      (fun z => if z = 0 then (1 : Cx ℚ) else 0) 0 hchoice hsq⟩

/-! ### Per-physical-component scaling through the reduction engine

`_sum_up` with a single kept qudit is, componentwise in that qudit's
physical index, linear in that qudit's Tensor Site: scaling the site's
physical component `j` by `c j` scales component `j` of the reduced
vector by `c j`.  The lemmas below push such a scaling through each
contraction step of the loop. -/

section ScaleLemmas

variable [CommRing K]

theorem stepKeep_scale (Mi site t' : Tensor5 K) (c : ℕ → Cx K)
    (he1 : t'.e1 = site.e1) (he2 : t'.e2 = site.e2) (he3 : t'.e3 = site.e3)
    (he4 : t'.e4 = site.e4)
    (hf : ∀ m q a b z, t'.f m q a b z = c z * site.f m q a b z) :
    (MPSState.stepKeep Mi t').e0 = (MPSState.stepKeep Mi site).e0 ∧
    (MPSState.stepKeep Mi t').e1 = (MPSState.stepKeep Mi site).e1 ∧
    (MPSState.stepKeep Mi t').e2 = (MPSState.stepKeep Mi site).e2 ∧
    (MPSState.stepKeep Mi t').e3 = (MPSState.stepKeep Mi site).e3 ∧
    (MPSState.stepKeep Mi t').e4 = (MPSState.stepKeep Mi site).e4 ∧
    ∀ m q a b z, (MPSState.stepKeep Mi t').f m q a b z =
      c (z % site.e4) * (MPSState.stepKeep Mi site).f m q a b z := by
  refine ⟨by simp [MPSState.stepKeep], by simp [MPSState.stepKeep, he1],
    by simp [MPSState.stepKeep, he2], by simp [MPSState.stepKeep, he3],
    by simp [MPSState.stepKeep, he4], ?_⟩
  intro m q a b z
  simp only [MPSState.stepKeep, he1, he2, he3, he4, hf]
  rw [Finset.mul_sum]
  exact Finset.sum_congr rfl fun ν _ => by ring

theorem stepTrace_scaleMi (Mi Mi' site : Tensor5 K) (g : ℕ → Cx K)
    (he0 : Mi'.e0 = Mi.e0) (he1 : Mi'.e1 = Mi.e1) (he2 : Mi'.e2 = Mi.e2)
    (he3 : Mi'.e3 = Mi.e3) (he4 : Mi'.e4 = Mi.e4)
    (hfM : ∀ m q a b z, Mi'.f m q a b z = g z * Mi.f m q a b z) :
    (MPSState.stepTrace Mi' site).e0 = (MPSState.stepTrace Mi site).e0 ∧
    (MPSState.stepTrace Mi' site).e1 = (MPSState.stepTrace Mi site).e1 ∧
    (MPSState.stepTrace Mi' site).e2 = (MPSState.stepTrace Mi site).e2 ∧
    (MPSState.stepTrace Mi' site).e3 = (MPSState.stepTrace Mi site).e3 ∧
    (MPSState.stepTrace Mi' site).e4 = (MPSState.stepTrace Mi site).e4 ∧
    ∀ m q a b z, (MPSState.stepTrace Mi' site).f m q a b z =
      g z * (MPSState.stepTrace Mi site).f m q a b z := by
  refine ⟨by simp [MPSState.stepTrace, he0], by simp [MPSState.stepTrace],
    by simp [MPSState.stepTrace, he2], by simp [MPSState.stepTrace, he3],
    by simp [MPSState.stepTrace, he4], ?_⟩
  intro m q a b z
  simp only [MPSState.stepTrace, he1, hfM]
  rw [Finset.mul_sum]
  refine Finset.sum_congr rfl fun ν _ => ?_
  rw [Finset.mul_sum]
  exact Finset.sum_congr rfl fun j _ => by ring

theorem stepTrace_congr (Mi Mi' : Tensor5 K) (site : Tensor5 K)
    (he : Mi' = Mi) : MPSState.stepTrace Mi' site = MPSState.stepTrace Mi site := by
  rw [he]

theorem rowSlice_scale (Mi Mi' : Tensor5 K) (g : ℕ → Cx K)
    (he2 : Mi'.e2 = Mi.e2) (he3 : Mi'.e3 = Mi.e3) (he4 : Mi'.e4 = Mi.e4)
    (hfM : ∀ m q a b z, Mi'.f m q a b z = g z * Mi.f m q a b z) :
    (MPSState.rowSlice Mi').d0 = (MPSState.rowSlice Mi).d0 ∧
    (MPSState.rowSlice Mi').d1 = (MPSState.rowSlice Mi).d1 ∧
    (MPSState.rowSlice Mi').d2 = (MPSState.rowSlice Mi).d2 ∧
    ∀ a b z, (MPSState.rowSlice Mi').g a b z =
      g z * (MPSState.rowSlice Mi).g a b z := by
  exact ⟨by simp [MPSState.rowSlice, he2], by simp [MPSState.rowSlice, he3],
    by simp [MPSState.rowSlice, he4], fun a b z => hfM 0 0 a b z⟩

/-- Scaling of the freshly closed row (`Mi`) survives the cross-row join:
the merged physical digit of the right operand reduces modulo `dn` to the
merged digit of the output, because `dn` divides the right operand's
physical extent. -/
theorem rowJoin_scaleRight (M Mi3 Mi3' : Tensor3 K) (c : ℕ → Cx K) (dn : ℕ)
    (_he0 : Mi3'.d0 = Mi3.d0) (he1 : Mi3'.d1 = Mi3.d1) (he2 : Mi3'.d2 = Mi3.d2)
    (hdvd : dn ∣ Mi3.d2)
    (hfM : ∀ a b z, Mi3'.g a b z = c (z % dn) * Mi3.g a b z) :
    (MPSState.rowJoin M Mi3').d0 = (MPSState.rowJoin M Mi3).d0 ∧
    (MPSState.rowJoin M Mi3').d1 = (MPSState.rowJoin M Mi3).d1 ∧
    (MPSState.rowJoin M Mi3').d2 = (MPSState.rowJoin M Mi3).d2 ∧
    ∀ m p z, (MPSState.rowJoin M Mi3').g m p z =
      c (z % dn) * (MPSState.rowJoin M Mi3).g m p z := by
  refine ⟨by simp [MPSState.rowJoin], by simp [MPSState.rowJoin, he1],
    by simp [MPSState.rowJoin, he2], ?_⟩
  intro m p z
  simp only [MPSState.rowJoin, he2, hfM]
  rw [Nat.mod_mod_of_dvd z hdvd, Finset.mul_sum]
  exact Finset.sum_congr rfl fun ν _ => by ring

/-- Scaling of the accumulated rows (`M`) survives a join against a later
row whose physical extent is 1 (every site of that row traced out). -/
theorem rowJoin_scaleLeft (M M' Mi3 : Tensor3 K) (c : ℕ → Cx K) (dn : ℕ)
    (he0 : M'.d0 = M.d0) (he1 : M'.d1 = M.d1) (he2 : M'.d2 = M.d2)
    (hone : Mi3.d2 = 1)
    (hfM : ∀ m p z, M'.g m p z = c (z % dn) * M.g m p z) :
    (MPSState.rowJoin M' Mi3).d0 = (MPSState.rowJoin M Mi3).d0 ∧
    (MPSState.rowJoin M' Mi3).d1 = (MPSState.rowJoin M Mi3).d1 ∧
    (MPSState.rowJoin M' Mi3).d2 = (MPSState.rowJoin M Mi3).d2 ∧
    ∀ m p z, (MPSState.rowJoin M' Mi3).g m p z =
      c (z % dn) * (MPSState.rowJoin M Mi3).g m p z := by
  refine ⟨by simp [MPSState.rowJoin, he0], by simp [MPSState.rowJoin],
    by simp [MPSState.rowJoin, he2], ?_⟩
  intro m p z
  simp only [MPSState.rowJoin, he1, hfM, hone, Nat.div_one]
  rw [Finset.mul_sum]
  exact Finset.sum_congr rfl fun ν _ => by ring

end ScaleLemmas

section SumUpScale

variable [CommRing K]

open MPSState

theorem sumAccAfter_succ (s : MPSState K) (keep : List ℕ) (m : ℕ) :
    MPSState.sumAccAfter s keep (m + 1) =
      MPSState.sumStep s keep (MPSState.sumAccAfter s keep m) m := by
  unfold MPSState.sumAccAfter
  exact foldl_range_succ _ _ m

/-- After any iteration the tracked row is the current site's row (both
branches of the row check leave it so). -/
theorem sumStep_row (s : MPSState K) (keep : List ℕ) (acc : SumAcc K) (i : ℕ) :
    (MPSState.sumStep s keep acc i).row = MPSState.rowOf s i := by
  simp only [MPSState.sumStep]
  split_ifs with hc hk <;> first | rfl | (push_neg at hc; exact hc)

theorem sumStep_close {s : MPSState K} {keep : List ℕ} {acc : SumAcc K} {i : ℕ}
    (hc : acc.row ≠ MPSState.rowOf s i) :
    MPSState.sumStep s keep acc i =
      ⟨MPSState.rowOf s i,
        if acc.row = -1 then ones3
          else MPSState.rowJoin acc.M3 (MPSState.rowSlice acc.Mi),
        if MPSState.keepQ keep i then MPSState.stepKeep ones5 (s.M.getD i ones5)
          else MPSState.stepTrace ones5 (s.M.getD i ones5)⟩ := by
  simp only [MPSState.sumStep, if_pos hc]

theorem sumStep_stay {s : MPSState K} {keep : List ℕ} {acc : SumAcc K} {i : ℕ}
    (hc : acc.row = MPSState.rowOf s i) :
    MPSState.sumStep s keep acc i =
      ⟨acc.row, acc.M3,
        if MPSState.keepQ keep i then MPSState.stepKeep acc.Mi (s.M.getD i ones5)
          else MPSState.stepTrace acc.Mi (s.M.getD i ones5)⟩ := by
  simp only [MPSState.sumStep, if_neg (not_not_intro hc)]

theorem sumStep_stay_keep {s : MPSState K} {keep : List ℕ} {acc : SumAcc K} {i : ℕ}
    (hc : acc.row = MPSState.rowOf s i) (hk : MPSState.keepQ keep i = true) :
    MPSState.sumStep s keep acc i =
      ⟨acc.row, acc.M3, MPSState.stepKeep acc.Mi (s.M.getD i ones5)⟩ := by
  rw [sumStep_stay hc, hk]
  simp

theorem sumStep_stay_trace {s : MPSState K} {keep : List ℕ} {acc : SumAcc K} {i : ℕ}
    (hc : acc.row = MPSState.rowOf s i) (hk : MPSState.keepQ keep i = false) :
    MPSState.sumStep s keep acc i =
      ⟨acc.row, acc.M3, MPSState.stepTrace acc.Mi (s.M.getD i ones5)⟩ := by
  rw [sumStep_stay hc, hk]
  simp

theorem sumStep_close_keep {s : MPSState K} {keep : List ℕ} {acc : SumAcc K} {i : ℕ}
    (hc : acc.row ≠ MPSState.rowOf s i) (hk : MPSState.keepQ keep i = true) :
    MPSState.sumStep s keep acc i =
      ⟨MPSState.rowOf s i,
        if acc.row = -1 then ones3
          else MPSState.rowJoin acc.M3 (MPSState.rowSlice acc.Mi),
        MPSState.stepKeep ones5 (s.M.getD i ones5)⟩ := by
  rw [sumStep_close hc, hk]
  simp

theorem sumStep_close_trace {s : MPSState K} {keep : List ℕ} {acc : SumAcc K} {i : ℕ}
    (hc : acc.row ≠ MPSState.rowOf s i) (hk : MPSState.keepQ keep i = false) :
    MPSState.sumStep s keep acc i =
      ⟨MPSState.rowOf s i,
        if acc.row = -1 then ones3
          else MPSState.rowJoin acc.M3 (MPSState.rowSlice acc.Mi),
        MPSState.stepTrace ones5 (s.M.getD i ones5)⟩ := by
  rw [sumStep_close hc, hk]
  simp

theorem keepQ_self (n : ℕ) : MPSState.keepQ [n] n = true := by
  simp [MPSState.keepQ]

theorem keepQ_ne {n m : ℕ} (h : m ≠ n) : MPSState.keepQ [n] m = false := by
  simp [MPSState.keepQ]
  omega

/-- Scaling one site's physical components scales the reduced single-qudit
vector of `_sum_up` componentwise: if site `n` is replaced by `t'` with the
same extents and `t'[..., j] = c j · M[n][..., j]`, then the reduced vector
over `{n}` satisfies `V'(z) = c (z mod d) · V(z)` where `d` is the site's
physical extent.  (Grid rows equal to the `-1` loop sentinel are excluded:
on such states the reference implementation either crashes with a
`NameError` or silently discards whole rows.) -/
theorem sum_up_single_scale (s : MPSState K) (n : ℕ) (c : ℕ → Cx K)
    (t' : Tensor5 K) (hn : n < s.M.length)
    (hrows : ∀ i, i < s.M.length → MPSState.rowOf s i ≠ -1)
    (he1 : t'.e1 = (s.M.getD n ones5).e1) (he2 : t'.e2 = (s.M.getD n ones5).e2)
    (he3 : t'.e3 = (s.M.getD n ones5).e3) (he4 : t'.e4 = (s.M.getD n ones5).e4)
    (hf : ∀ m q a b z, t'.f m q a b z = c z * (s.M.getD n ones5).f m q a b z) :
    ∀ z, MPSState.sum_up {s with M := s.M.set n t'} [n] z =
      c (z % (s.M.getD n ones5).e4) * MPSState.sum_up s [n] z := by
  have hrowOf : MPSState.rowOf {s with M := s.M.set n t'} = MPSState.rowOf s := rfl
  have hlen : ({s with M := s.M.set n t'} : MPSState K).M.length = s.M.length := by
    simp
  have hsite_ne : ∀ i, i ≠ n →
      ({s with M := s.M.set n t'} : MPSState K).M.getD i ones5 = s.M.getD i ones5 :=
    fun i hi => getD_set_ne _ _ _ fun hh => hi hh.symm
  have hsite_n : ({s with M := s.M.set n t'} : MPSState K).M.getD n ones5 = t' :=
    getD_set_self s.M t' ones5 hn
  have hstep_eq : ∀ (acc : SumAcc K) (m : ℕ), m ≠ n →
      MPSState.sumStep {s with M := s.M.set n t'} [n] acc m =
        MPSState.sumStep s [n] acc m := by
    intro acc m hm
    simp only [MPSState.sumStep, hrowOf, hsite_ne m hm]
  have hrow_eq : ∀ m, (MPSState.sumAccAfter {s with M := s.M.set n t'} [n] m).row =
      (MPSState.sumAccAfter s [n] m).row := by
    intro m
    cases m with
    | zero => rfl
    | succ k =>
      rw [sumAccAfter_succ, sumAccAfter_succ, sumStep_row, sumStep_row, hrowOf]
  have hrow_val : ∀ m, 0 < m →
      (MPSState.sumAccAfter s [n] m).row = MPSState.rowOf s (m - 1) := by
    intro m hm
    cases m with
    | zero => omega
    | succ k => rw [sumAccAfter_succ, sumStep_row]; rfl
  -- the inductive invariant over processed prefixes
  have inv : ∀ m, m ≤ s.M.length →
      ((m ≤ n → MPSState.sumAccAfter {s with M := s.M.set n t'} [n] m =
          MPSState.sumAccAfter s [n] m) ∧
       (n < m → (∀ k, n < k → k < m → MPSState.rowOf s k = MPSState.rowOf s n) →
          (MPSState.sumAccAfter {s with M := s.M.set n t'} [n] m).M3 =
            (MPSState.sumAccAfter s [n] m).M3 ∧
          (MPSState.sumAccAfter {s with M := s.M.set n t'} [n] m).Mi.e0 =
            (MPSState.sumAccAfter s [n] m).Mi.e0 ∧
          (MPSState.sumAccAfter {s with M := s.M.set n t'} [n] m).Mi.e1 =
            (MPSState.sumAccAfter s [n] m).Mi.e1 ∧
          (MPSState.sumAccAfter {s with M := s.M.set n t'} [n] m).Mi.e2 =
            (MPSState.sumAccAfter s [n] m).Mi.e2 ∧
          (MPSState.sumAccAfter {s with M := s.M.set n t'} [n] m).Mi.e3 =
            (MPSState.sumAccAfter s [n] m).Mi.e3 ∧
          (MPSState.sumAccAfter {s with M := s.M.set n t'} [n] m).Mi.e4 =
            (MPSState.sumAccAfter s [n] m).Mi.e4 ∧
          (∀ x q a b z,
            (MPSState.sumAccAfter {s with M := s.M.set n t'} [n] m).Mi.f x q a b z =
              c (z % (s.M.getD n ones5).e4) *
                (MPSState.sumAccAfter s [n] m).Mi.f x q a b z) ∧
          (s.M.getD n ones5).e4 ∣ (MPSState.sumAccAfter s [n] m).Mi.e4) ∧
       (n < m → ¬ (∀ k, n < k → k < m → MPSState.rowOf s k = MPSState.rowOf s n) →
          (MPSState.sumAccAfter {s with M := s.M.set n t'} [n] m).Mi =
            (MPSState.sumAccAfter s [n] m).Mi ∧
          (MPSState.sumAccAfter s [n] m).Mi.e4 = 1 ∧
          (MPSState.sumAccAfter {s with M := s.M.set n t'} [n] m).M3.d0 =
            (MPSState.sumAccAfter s [n] m).M3.d0 ∧
          (MPSState.sumAccAfter {s with M := s.M.set n t'} [n] m).M3.d1 =
            (MPSState.sumAccAfter s [n] m).M3.d1 ∧
          (MPSState.sumAccAfter {s with M := s.M.set n t'} [n] m).M3.d2 =
            (MPSState.sumAccAfter s [n] m).M3.d2 ∧
          (∀ x p z,
            (MPSState.sumAccAfter {s with M := s.M.set n t'} [n] m).M3.g x p z =
              c (z % (s.M.getD n ones5).e4) *
                (MPSState.sumAccAfter s [n] m).M3.g x p z))) := by
    intro m
    induction m with
    | zero =>
      intro _
      refine ⟨fun _ => rfl, fun hlt => absurd hlt (by omega), fun hlt => absurd hlt (by omega)⟩
    | succ m ih =>
      intro hm1
      obtain ⟨ih1, ih2, ih3⟩ := ih (by omega)
      by_cases hmn : m < n
      · -- still strictly before the scaled site: accumulators equal
        have heq : MPSState.sumAccAfter {s with M := s.M.set n t'} [n] (m + 1) =
            MPSState.sumAccAfter s [n] (m + 1) := by
          rw [sumAccAfter_succ, sumAccAfter_succ, ih1 (by omega),
            hstep_eq _ m (by omega)]
        exact ⟨fun _ => heq,
          fun hlt => absurd hlt (by omega), fun hlt => absurd hlt (by omega)⟩
      · by_cases hmeq : m = n
        · -- the step that contracts the scaled site
          subst hmeq
          have hprev := ih1 (le_refl m)
          rw [sumAccAfter_succ, sumAccAfter_succ, hprev]
          -- both runs share the pre-step accumulator; the row check treats
          -- them identically, then the keep-contraction picks up the scale
          have hkeep := keepQ_self m
          by_cases hcl : (MPSState.sumAccAfter s [m] m).row = MPSState.rowOf s m
          · rw [sumStep_stay_keep (s := {s with M := s.M.set m t'})
                (by rw [hrowOf]; exact hcl) hkeep,
              sumStep_stay_keep hcl hkeep, hsite_n]
            have hsc := stepKeep_scale (MPSState.sumAccAfter s [m] m).Mi
              (s.M.getD m ones5) t' c he1 he2 he3 he4 hf
            refine ⟨fun hc => absurd hc (by omega), fun _ _ => ?_,
              fun _ hno => absurd (fun k hk1 hk2 => by omega) hno⟩
            exact ⟨rfl, hsc.1, hsc.2.1, hsc.2.2.1, hsc.2.2.2.1, hsc.2.2.2.2.1,
              hsc.2.2.2.2.2, dvd_mul_left _ _⟩
          · rw [sumStep_close_keep (s := {s with M := s.M.set m t'})
                (by rw [hrowOf]; exact hcl) hkeep,
              sumStep_close_keep hcl hkeep, hsite_n]
            have hsc := stepKeep_scale ones5 (s.M.getD m ones5) t' c he1 he2 he3 he4 hf
            refine ⟨fun hc => absurd hc (by omega), fun _ _ => ?_,
              fun _ hno => absurd (fun k hk1 hk2 => by omega) hno⟩
            exact ⟨rfl, hsc.1, hsc.2.1, hsc.2.2.1, hsc.2.2.2.1, hsc.2.2.2.2.1,
              hsc.2.2.2.2.2, dvd_mul_left _ _⟩
        · -- past the scaled site
          have hnm : n < m := by omega
          have hrowval : (MPSState.sumAccAfter s [n] m).row = MPSState.rowOf s (m - 1) :=
            hrow_val m (by omega)
          by_cases hopen : ∀ k, n < k → k < m → MPSState.rowOf s k = MPSState.rowOf s n
          · -- the scaled site's row is still open: Mi carries the scale
            obtain ⟨hM3, hMe0, hMe1, hMe2, hMe3, hMe4, hMf, hdvd⟩ := ih2 hnm hopen
            have hrowm1 : MPSState.rowOf s (m - 1) = MPSState.rowOf s n := by
              rcases Nat.eq_or_lt_of_le (Nat.succ_le_of_lt hnm) with hh | hh
              · rw [← hh]; simp
              · exact hopen (m - 1) (by omega) (by omega)
            by_cases hrowm : MPSState.rowOf s m = MPSState.rowOf s n
            · -- same row continues: no close, trace the current site through
              have hstay : (MPSState.sumAccAfter s [n] m).row = MPSState.rowOf s m := by
                rw [hrowval, hrowm1, hrowm]
              rw [sumAccAfter_succ, sumAccAfter_succ,
                sumStep_stay_trace (s := {s with M := s.M.set n t'})
                  (by rw [hrowOf, hrow_eq]; exact hstay) (keepQ_ne hmeq),
                sumStep_stay_trace hstay (keepQ_ne hmeq), hsite_ne m hmeq]
              have hopen1 : ∀ k, n < k → k < m + 1 →
                  MPSState.rowOf s k = MPSState.rowOf s n := by
                intro k h1 h2
                rcases Nat.lt_succ_iff_lt_or_eq.mp h2 with h3 | h3
                · exact hopen k h1 h3
                · subst h3; exact hrowm
              have htr := stepTrace_scaleMi (MPSState.sumAccAfter s [n] m).Mi
                (MPSState.sumAccAfter {s with M := s.M.set n t'} [n] m).Mi
                (s.M.getD m ones5) (fun z => c (z % (s.M.getD n ones5).e4))
                hMe0 hMe1 hMe2 hMe3 hMe4 hMf
              refine ⟨fun hc => absurd hc (by omega), fun _ _ => ?_,
                fun _ hno => absurd hopen1 hno⟩
              exact ⟨hM3, htr.1, htr.2.1, htr.2.2.1, htr.2.2.2.1, htr.2.2.2.2.1,
                htr.2.2.2.2.2, hdvd⟩
            · -- row changes: close the scaled row into M3
              have hclose : (MPSState.sumAccAfter s [n] m).row ≠ MPSState.rowOf s m := by
                rw [hrowval, hrowm1]
                exact fun hh => hrowm hh.symm
              have hnotm1 : (MPSState.sumAccAfter s [n] m).row ≠ -1 := by
                rw [hrowval, hrowm1]
                exact hrows n hn
              rw [sumAccAfter_succ, sumAccAfter_succ,
                sumStep_close_trace (s := {s with M := s.M.set n t'})
                  (by rw [hrowOf, hrow_eq]; exact hclose) (keepQ_ne hmeq),
                sumStep_close_trace hclose (keepQ_ne hmeq), hsite_ne m hmeq]
              have hnotm1' :
                  (MPSState.sumAccAfter {s with M := s.M.set n t'} [n] m).row ≠ -1 := by
                rw [hrow_eq]; exact hnotm1
              have hnopen : ¬ ∀ k, n < k → k < m + 1 →
                  MPSState.rowOf s k = MPSState.rowOf s n :=
                fun hall => hrowm (hall m (by omega) (by omega))
              have hsl := rowSlice_scale (MPSState.sumAccAfter s [n] m).Mi
                (MPSState.sumAccAfter {s with M := s.M.set n t'} [n] m).Mi
                (fun z => c (z % (s.M.getD n ones5).e4)) hMe2 hMe3 hMe4 hMf
              have hdvd' : (s.M.getD n ones5).e4 ∣
                  (MPSState.rowSlice (MPSState.sumAccAfter s [n] m).Mi).d2 := hdvd
              have hrj := rowJoin_scaleRight (MPSState.sumAccAfter s [n] m).M3
                (MPSState.rowSlice (MPSState.sumAccAfter s [n] m).Mi)
                (MPSState.rowSlice
                  (MPSState.sumAccAfter {s with M := s.M.set n t'} [n] m).Mi)
                c (s.M.getD n ones5).e4 hsl.1 hsl.2.1 hsl.2.2.1 hdvd' hsl.2.2.2
              refine ⟨fun hc => absurd hc (by omega),
                fun _ hop => absurd hop hnopen, fun _ _ => ?_⟩
              rw [if_neg hnotm1, if_neg hnotm1', hM3]
              exact ⟨rfl, rfl, hrj.1, hrj.2.1, hrj.2.2.1, hrj.2.2.2⟩
          · -- the scaled site's row is already closed: M3 carries the scale
            obtain ⟨hMi, hMe4one, hd0, hd1, hd2, hMg⟩ := ih3 hnm hopen
            have hnopen : ¬ ∀ k, n < k → k < m + 1 →
                MPSState.rowOf s k = MPSState.rowOf s n :=
              fun hall => hopen fun k h1 h2 => hall k h1 (by omega)
            by_cases hcl : (MPSState.sumAccAfter s [n] m).row = MPSState.rowOf s m
            · -- no close: everything unchanged
              rw [sumAccAfter_succ, sumAccAfter_succ,
                sumStep_stay_trace (s := {s with M := s.M.set n t'})
                  (by rw [hrowOf, hrow_eq]; exact hcl) (keepQ_ne hmeq),
                sumStep_stay_trace hcl (keepQ_ne hmeq), hsite_ne m hmeq, hMi]
              refine ⟨fun hc => absurd hc (by omega),
                fun _ hop => absurd hop hnopen, fun _ _ => ?_⟩
              exact ⟨rfl, hMe4one, hd0, hd1, hd2, hMg⟩
            · -- close of a later (fully traced) row: the scale stays on M3
              have hnotm1 : (MPSState.sumAccAfter s [n] m).row ≠ -1 := by
                rw [hrowval]
                exact hrows (m - 1) (by omega)
              have hnotm1' :
                  (MPSState.sumAccAfter {s with M := s.M.set n t'} [n] m).row ≠ -1 := by
                rw [hrow_eq]; exact hnotm1
              rw [sumAccAfter_succ, sumAccAfter_succ,
                sumStep_close_trace (s := {s with M := s.M.set n t'})
                  (by rw [hrowOf, hrow_eq]; exact hcl) (keepQ_ne hmeq),
                sumStep_close_trace hcl (keepQ_ne hmeq), hsite_ne m hmeq, hMi]
              have hone : (MPSState.rowSlice (MPSState.sumAccAfter s [n] m).Mi).d2 = 1 :=
                hMe4one
              have hrj := rowJoin_scaleLeft (MPSState.sumAccAfter s [n] m).M3
                (MPSState.sumAccAfter {s with M := s.M.set n t'} [n] m).M3
                (MPSState.rowSlice (MPSState.sumAccAfter s [n] m).Mi)
                c (s.M.getD n ones5).e4 hd0 hd1 hd2 hone hMg
              refine ⟨fun hc => absurd hc (by omega),
                fun _ hop => absurd hop hnopen, fun _ _ => ?_⟩
              rw [if_neg hnotm1, if_neg hnotm1']
              exact ⟨rfl, rfl, hrj.1, hrj.2.1, hrj.2.2.1, hrj.2.2.2⟩
  -- conclude from the invariant at the full prefix
  intro z
  obtain ⟨_, inv2, inv3⟩ := inv s.M.length (le_refl _)
  unfold MPSState.sum_up
  simp only [hlen]
  by_cases hopen : ∀ k, n < k → k < s.M.length → MPSState.rowOf s k = MPSState.rowOf s n
  · obtain ⟨hM3, hMe0, hMe1, hMe2, hMe3, hMe4, hMf, hdvd⟩ := inv2 hn hopen
    have hsl := rowSlice_scale (MPSState.sumAccAfter s [n] s.M.length).Mi
      (MPSState.sumAccAfter {s with M := s.M.set n t'} [n] s.M.length).Mi
      (fun z => c (z % (s.M.getD n ones5).e4)) hMe2 hMe3 hMe4 hMf
    have hrj := rowJoin_scaleRight (MPSState.sumAccAfter s [n] s.M.length).M3
      (MPSState.rowSlice (MPSState.sumAccAfter s [n] s.M.length).Mi)
      (MPSState.rowSlice
        (MPSState.sumAccAfter {s with M := s.M.set n t'} [n] s.M.length).Mi)
      c (s.M.getD n ones5).e4 hsl.1 hsl.2.1 hsl.2.2.1 hdvd hsl.2.2.2
    rw [hM3]
    exact hrj.2.2.2 0 0 z
  · obtain ⟨hMi, hMe4one, hd0, hd1, hd2, hMg⟩ := inv3 hn hopen
    have hrj := rowJoin_scaleLeft (MPSState.sumAccAfter s [n] s.M.length).M3
      (MPSState.sumAccAfter {s with M := s.M.set n t'} [n] s.M.length).M3
      (MPSState.rowSlice (MPSState.sumAccAfter s [n] s.M.length).Mi)
      c (s.M.getD n ones5).e4 hd0 hd1 hd2 hMe4one hMg
    rw [hMi]
    exact hrj.2.2.2 0 0 z

end SumUpScale

section CollapseIdempotent

variable [LinearOrderedField K]

/-- For a single measured qudit no other qudit is traced out:
`M_traced_out` is the reduced vector itself. -/
theorem tracedOut_single (d : ℕ) (V : ℕ → Cx K) {j : ℕ} (hj : j < d) :
    MPSState.tracedOut [d] 0 V j = V j := by
  unfold MPSState.tracedOut
  have hs0 : MPSState.suffProd [d] 0 = d := by simp [MPSState.suffProd]
  have hdig : ∀ z, MPSState.digitOf [d] 0 z = z % d := by
    intro z
    simp [MPSState.digitOf, MPSState.suffProd]
  have hfilter : (Finset.range (MPSState.suffProd [d] 0)).filter
      (fun z => MPSState.digitOf [d] 0 z = j) = {j} := by
    rw [hs0]
    ext z
    simp only [Finset.mem_filter, Finset.mem_range, Finset.mem_singleton, hdig]
    constructor
    · rintro ⟨hz, hmod⟩
      rw [Nat.mod_eq_of_lt hz] at hmod
      exact hmod
    · rintro rfl
      exact ⟨hj, Nat.mod_eq_of_lt hj⟩
  rw [hfilter, Finset.sum_singleton]

theorem measProbs1_length (s : MPSState K) (n : ℕ) :
    (MPSState.measProbs1 s n).length = MPSState.measDim s n := by
  simp [MPSState.measProbs1, MPSState.stepProbs]

theorem measProbs1_getD (s : MPSState K) (n : ℕ) {j : ℕ}
    (hj : j < MPSState.measDim s n) :
    (MPSState.measProbs1 s n).getD j 0 =
      Cx.normSq (MPSState.sum_up s [n] j) := by
  unfold MPSState.measProbs1 MPSState.stepProbs
  simp only [List.getD_cons_zero]
  rw [getD_map_range _ _ hj, tracedOut_single _ _ hj]

theorem measNorm1_length (s : MPSState K) (n : ℕ) :
    (MPSState.measNorm1 s n).length = MPSState.measDim s n := by
  rw [MPSState.measNorm1, MPSState.normProbs, List.length_map, measProbs1_length]

theorem measNorm1_getD (s : MPSState K) (n : ℕ) {j : ℕ}
    (hj : j < MPSState.measDim s n) :
    (MPSState.measNorm1 s n).getD j 0 =
      (MPSState.measProbs1 s n).getD j 0 / (MPSState.measProbs1 s n).sum := by
  unfold MPSState.measNorm1 MPSState.normProbs
  exact getD_map_of_lt _ _ (by rw [measProbs1_length]; exact hj)

theorem measNorm1_getD_ge (s : MPSState K) (n : ℕ) {j : ℕ}
    (hj : MPSState.measDim s n ≤ j) : (MPSState.measNorm1 s n).getD j 0 = 0 := by
  have hlen : (MPSState.measNorm1 s n).length ≤ j := by
    rw [measNorm1_length]; exact hj
  simp [List.getD_eq_getElem?_getD, List.getElem?_eq_none hlen]

/-- A sampled index with positive renormalized weight is in range. -/
theorem measR1_lt (choice : ℕ → List K → ℕ) (s : MPSState K) (n : ℕ)
    (hc1 : 0 < (MPSState.measNorm1 s n).getD (MPSState.measR1 choice s n) 0) :
    MPSState.measR1 choice s n < MPSState.measDim s n := by
  by_contra hge
  push_neg at hge
  rw [measNorm1_getD_ge s n hge] at hc1
  exact absurd hc1 (lt_irrefl 0)

/-- A sampled index with positive renormalized weight has positive
unnormalized probability. -/
theorem measP_pos (choice : ℕ → List K → ℕ) (s : MPSState K) (n : ℕ)
    (hc1 : 0 < (MPSState.measNorm1 s n).getD (MPSState.measR1 choice s n) 0) :
    0 < MPSState.measP choice s n :=
  normProbs_pos_imp [MPSState.measDim s n] 0 (MPSState.sum_up s [n])
    (MPSState.measR1 choice s n) hc1

/-- `perform_measurement` on a single qudit: the outcome is the sampled
`result` and the state update is the renormalizer contraction on that
qudit's site (the collapser update of `M` at the last iteration is computed
and dropped). -/
theorem perform_measurement_single (sqrt : K → K) (choice : ℕ → List K → ℕ)
    (s : MPSState K) (n : ℕ) :
    MPSState.perform_measurement sqrt choice s [n] true =
      ([MPSState.measR1 choice s n],
        { s with M := s.M.set n (MPSState.applySinglePhys
            (fun a b => Cx.ofK ((MPSState.renormalizer sqrt (MPSState.measDim s n)
              (MPSState.measR1 choice s n) (MPSState.measP choice s n)).f a b))
            (MPSState.measDim s n) (s.M.getD n ones5)) }) := rfl

/-- The renormalizer contraction is exactly a per-physical-component
scaling: component `result` is divided by `sqrt(probs[result])`, every
other component is zeroed. -/
theorem renormalizer_scale (sqrt : K → K) (d r : ℕ) (p : K) (t : Tensor5 K)
    (hr : r < d) :
    ∀ x q a b i,
      (MPSState.applySinglePhys
        (fun a b => Cx.ofK ((MPSState.renormalizer sqrt d r p).f a b)) d t).f x q a b i =
      Cx.ofK (if i = r then 1 / sqrt p else 0) * t.f x q a b i := by
  intro x q a b i
  show (∑ j ∈ Finset.range d,
      Cx.ofK ((MPSState.renormalizer sqrt d r p).f i j) * t.f x q a b j) = _
  by_cases hi : i = r
  · subst hi
    rw [Finset.sum_eq_single i]
    · simp [MPSState.renormalizer]
    · intro b' _ hbne
      simp [MPSState.renormalizer, hbne]
    · intro habs
      exact absurd (Finset.mem_range.mpr hr) habs
  · rw [Finset.sum_eq_zero]
    · simp [hi]
    · intro b' _
      simp [MPSState.renormalizer, hi]

/-- Claim C9 (confirmed): measuring the same qudit twice in immediate
succession with collapse enabled returns the same outcome both times:
after the first collapse the second call's renormalized marginal for that
qudit is exactly the point mass on the first outcome, so an injected
random source whose weighted choice only returns indices of strictly
positive supplied weight must return it again.  Hypotheses: the qudit
position is valid, its site's physical extent is its dimension, no grid
row equals the loop's `-1` sentinel (where the reference itself crashes or
corrupts, see `sum_up_single_scale`), both sampled indices carry positive
supplied weight, and the injected `sqrt` is a genuine positive square root
at `probs[result]`. -/
theorem c9_collapse_idempotent {K : Type} [LinearOrderedField K]
    (sqrt : K → K) (choice : ℕ → List K → ℕ) (s : MPSState K) (n : ℕ)
    (hn : n < s.M.length)
    (hrows : ∀ i, i < s.M.length → MPSState.rowOf s i ≠ -1)
    (hdim : (s.M.getD n ones5).e4 = MPSState.measDim s n)
    (hc1 : 0 < (MPSState.measNorm1 s n).getD (MPSState.measR1 choice s n) 0)
    (hsq1 : 0 < sqrt (MPSState.measP choice s n))
    (hsq2 : sqrt (MPSState.measP choice s n) * sqrt (MPSState.measP choice s n) =
      MPSState.measP choice s n)
    (hc2 : 0 < (MPSState.measNorm1
        ((MPSState.perform_measurement sqrt choice s [n] true).2) n).getD
      (MPSState.measR1 choice
        ((MPSState.perform_measurement sqrt choice s [n] true).2) n) 0) :
    (MPSState.perform_measurement sqrt choice
        ((MPSState.perform_measurement sqrt choice s [n] true).2) [n] true).1 =
      (MPSState.perform_measurement sqrt choice s [n] true).1 ∧
    ∀ j, j < MPSState.measDim s n →
      (MPSState.measNorm1
          ((MPSState.perform_measurement sqrt choice s [n] true).2) n).getD j 0 =
        (if j = MPSState.measR1 choice s n then 1 else 0) := by
  have hr1 := measR1_lt choice s n hc1
  have hp := measP_pos choice s n hc1
  have hpne : MPSState.measP choice s n ≠ 0 := ne_of_gt hp
  have hsne : sqrt (MPSState.measP choice s n) ≠ 0 := ne_of_gt hsq1
  set r1 := MPSState.measR1 choice s n with hr1def
  set p := MPSState.measP choice s n with hpdef
  set d := MPSState.measDim s n with hddef
  set t' := MPSState.applySinglePhys
    (fun a b => Cx.ofK ((MPSState.renormalizer sqrt d r1 p).f a b)) d
    (s.M.getD n ones5) with ht'def
  have hs1 : (MPSState.perform_measurement sqrt choice s [n] true).2 =
      { s with M := s.M.set n t' } := by
    rw [perform_measurement_single, ht'def, hr1def, hpdef, hddef]
  rw [hs1] at hc2
  have hscale : ∀ x q a b i, t'.f x q a b i =
      Cx.ofK (if i = r1 then 1 / sqrt p else 0) * (s.M.getD n ones5).f x q a b i :=
    renormalizer_scale sqrt d r1 p (s.M.getD n ones5) hr1
  have he4 : t'.e4 = (s.M.getD n ones5).e4 := hdim.symm
  have hV2 := sum_up_single_scale s n
    (fun i => Cx.ofK (if i = r1 then 1 / sqrt p else 0)) t' hn hrows rfl rfl rfl
    he4 hscale
  have hval : Cx.normSq (MPSState.sum_up s [n] r1) = p := by
    rw [hpdef]
    show _ = MPSState.measP choice s n
    unfold MPSState.measP
    rw [← hr1def]
    exact (measProbs1_getD s n hr1).symm
  have hterm : ∀ j, j < d →
      Cx.normSq (MPSState.sum_up ({ s with M := s.M.set n t' } : MPSState K) [n] j) =
        (if j = r1 then 1 else 0) := by
    intro j hj
    rw [hV2 j, hdim]
    rw [Nat.mod_eq_of_lt hj, Cx.normSq_mul, Cx.normSq_ofK]
    by_cases hjr : j = r1
    · subst hjr
      rw [if_pos rfl, if_pos rfl, hval]
      field_simp
      exact hsq2.symm
    · rw [if_neg hjr, if_neg hjr]
      simp
  have hP2 : ∀ j, j < d →
      (MPSState.measProbs1 ({ s with M := s.M.set n t' } : MPSState K) n).getD j 0 =
        (if j = r1 then 1 else 0) := by
    intro j hj
    rw [measProbs1_getD _ n (by exact hj)]
    exact hterm j hj
  have hsum2 :
      (MPSState.measProbs1 ({ s with M := s.M.set n t' } : MPSState K) n).sum = 1 := by
    unfold MPSState.measProbs1 MPSState.stepProbs
    simp only [List.getD_cons_zero]
    rw [sum_map_range]
    show (∑ j ∈ Finset.range d, Cx.normSq (MPSState.tracedOut [d] 0
        (MPSState.sum_up ({ s with M := s.M.set n t' } : MPSState K) [n]) j)) = 1
    have hstep : ∀ j ∈ Finset.range d,
        Cx.normSq (MPSState.tracedOut [d] 0
          (MPSState.sum_up ({ s with M := s.M.set n t' } : MPSState K) [n]) j) =
        (if j = r1 then (1 : K) else 0) := by
      intro j hj
      rw [tracedOut_single _ _ (Finset.mem_range.mp hj)]
      exact hterm j (Finset.mem_range.mp hj)
    rw [Finset.sum_congr rfl hstep,
      Finset.sum_ite_eq' (Finset.range d) r1 (fun _ => (1 : K)),
      if_pos (Finset.mem_range.mpr hr1)]
  have hNP2 : ∀ j, j < d →
      (MPSState.measNorm1 ({ s with M := s.M.set n t' } : MPSState K) n).getD j 0 =
        (if j = r1 then 1 else 0) := by
    intro j hj
    rw [measNorm1_getD _ n (by exact hj), hP2 j hj, hsum2, div_one]
  have hr2 : MPSState.measR1 choice ({ s with M := s.M.set n t' } : MPSState K) n =
      r1 := by
    by_contra hne
    rcases lt_or_ge (MPSState.measR1 choice
      ({ s with M := s.M.set n t' } : MPSState K) n) d with hlt | hge
    · rw [hNP2 _ hlt, if_neg hne] at hc2
      exact absurd hc2 (lt_irrefl 0)
    · rw [measNorm1_getD_ge _ n (by exact hge)] at hc2
      exact absurd hc2 (lt_irrefl 0)
  constructor
  · rw [hs1, perform_measurement_single, perform_measurement_single]
    rw [hr2, hr1def]
  · intro j hj
    rw [hs1]
    exact hNP2 j hj

/-- Concrete evaluation: for the one-qubit state `|0⟩`, component 0 of the
reduced vector is 1. -/
theorem c9h_V0 : MPSState.sum_up (MPSState.init (K := ℚ) [qd 2] 0) [0] 0 = 1 := by
  ext <;> norm_num [MPSState.sum_up, MPSState.sumAccAfter, MPSState.sumStep,
    MPSState.rowOf, MPSState.rowSlice, MPSState.rowJoin, MPSState.stepKeep,
    MPSState.stepTrace, MPSState.keepQ, MPSState.init, MPSState.initLoop,
    basisSite, ones3, ones5, qd, List.range_succ,
    Finset.sum_range_succ, Finset.filter_singleton]

/-- Concrete evaluation: for the one-qubit state `|0⟩`, component 1 of the
reduced vector is 0. -/
theorem c9h_V1 : MPSState.sum_up (MPSState.init (K := ℚ) [qd 2] 0) [0] 1 = 0 := by
  ext <;> norm_num [MPSState.sum_up, MPSState.sumAccAfter, MPSState.sumStep,
    MPSState.rowOf, MPSState.rowSlice, MPSState.rowJoin, MPSState.stepKeep,
    MPSState.stepTrace, MPSState.keepQ, MPSState.init, MPSState.initLoop,
    basisSite, ones3, ones5, qd, List.range_succ,
    Finset.sum_range_succ, Finset.filter_singleton]

/-- Concrete evaluation: measuring the one-qubit state `|0⟩` sees
`probs = [1, 0]`. -/
theorem c9h_hP : MPSState.measProbs1 (MPSState.init (K := ℚ) [qd 2] 0) 0 = [1, 0] := by
  rw [MPSState.measProbs1,
    show MPSState.measDim (MPSState.init (K := ℚ) [qd 2] 0) 0 = 2 from rfl,
    MPSState.stepProbs,
    show ([2] : List ℕ).getD 0 0 = 2 from rfl,
    show List.range 2 = [0, 1] from rfl]
  simp only [List.map_cons, List.map_nil]
  rw [MPSState.tracedOut, MPSState.tracedOut]
  rw [show (Finset.range (MPSState.suffProd [2] 0)).filter
    (fun z => MPSState.digitOf [2] 0 z = 0) = {0} by decide]
  rw [show (Finset.range (MPSState.suffProd [2] 0)).filter
    (fun z => MPSState.digitOf [2] 0 z = 1) = {1} by decide]
  rw [Finset.sum_singleton, Finset.sum_singleton, c9h_V0, c9h_V1]
  norm_num [Cx.normSq]

/-- Concrete evaluation: with the outcome-0-forcing random source,
`probs[result] = 1` on `|0⟩`. -/
theorem c9h_hp1 : MPSState.measP (fun _ _ => 0) (MPSState.init (K := ℚ) [qd 2] 0) 0 = 1 := by
  rw [MPSState.measP,
    show MPSState.measR1 (fun _ _ => 0) (MPSState.init (K := ℚ) [qd 2] 0) 0 = 0 from rfl,
    c9h_hP]
  rfl

/-- With `probs[result] = 1` the renormalizer contraction fixes the
`|0⟩` basis site. -/
theorem c9h_site : MPSState.applySinglePhys
    (fun a b => Cx.ofK ((MPSState.renormalizer qsqrt 2 0 1).f a b)) 2
    (basisSite 2 0) = (basisSite 2 0 : Tensor5 ℚ) := by
  refine Tensor5.ext rfl rfl rfl rfl rfl ?_
  funext m n o p i
  rw [renormalizer_scale qsqrt 2 0 1 (basisSite 2 0) (by norm_num)]
  by_cases hi : i = 0
  · subst hi
    norm_num [qsqrt]
    rw [show (Cx.ofK 1 : Cx ℚ) = 1 from by ext <;> simp, one_mul]
  · rw [if_neg hi]
    simp [basisSite, hi]

/-- Measuring `|0⟩` with collapse leaves the state unchanged. -/
theorem c9h_hS : (MPSState.perform_measurement qsqrt (fun _ _ => 0)
    (MPSState.init (K := ℚ) [qd 2] 0) [0] true).2 =
    MPSState.init (K := ℚ) [qd 2] 0 := by
  rw [perform_measurement_single, c9h_hp1,
    show MPSState.measR1 (fun _ _ => 0) (MPSState.init (K := ℚ) [qd 2] 0) 0 = 0 from rfl,
    show MPSState.measDim (MPSState.init (K := ℚ) [qd 2] 0) 0 = 2 from rfl,
    show (MPSState.init (K := ℚ) [qd 2] 0).M.getD 0 ones5 = basisSite 2 0 from rfl,
    c9h_site]
  rfl

/-- The sampled outcome 0 carries positive renormalized weight on `|0⟩`. -/
theorem c9h_hc1 : 0 < (MPSState.measNorm1 (MPSState.init (K := ℚ) [qd 2] 0) 0).getD
    (MPSState.measR1 (fun _ _ => 0) (MPSState.init (K := ℚ) [qd 2] 0) 0) 0 := by
  rw [show MPSState.measR1 (fun _ _ => 0) (MPSState.init (K := ℚ) [qd 2] 0) 0 = 0 from rfl,
    MPSState.measNorm1, c9h_hP]
  norm_num [MPSState.normProbs]

/-- Witness for `c9_collapse_idempotent`: the one-qubit state `|0⟩`,
`sqrt` the exact rational square root on the values that occur, and a
random source that always picks index 0; both measurements return
outcome 0 and the post-collapse marginal is the point mass `[1, 0]`. -/
theorem c9_collapse_idempotent_witness :
    (MPSState.perform_measurement qsqrt (fun _ _ => 0)
        ((MPSState.perform_measurement qsqrt (fun _ _ => 0)
          (MPSState.init (K := ℚ) [qd 2] 0) [0] true).2) [0] true).1 =
      (MPSState.perform_measurement qsqrt (fun _ _ => 0)
        (MPSState.init (K := ℚ) [qd 2] 0) [0] true).1 ∧
    ∀ j, j < MPSState.measDim (MPSState.init (K := ℚ) [qd 2] 0) 0 →
      (MPSState.measNorm1 ((MPSState.perform_measurement qsqrt (fun _ _ => 0)
          (MPSState.init (K := ℚ) [qd 2] 0) [0] true).2) 0).getD j 0 =
        (if j = MPSState.measR1 (fun _ _ => 0) (MPSState.init (K := ℚ) [qd 2] 0) 0
          then 1 else 0) :=
  c9_collapse_idempotent qsqrt (fun _ _ => 0) (MPSState.init [qd 2] 0) 0
    (by norm_num [MPSState.init, MPSState.initLoop])
    (by intro i _; norm_num [MPSState.rowOf, MPSState.init, qd])
    rfl
    c9h_hc1
    (by rw [c9h_hp1]; norm_num [qsqrt])
    (by rw [c9h_hp1]; norm_num [qsqrt])
    (by rw [c9h_hS]; exact c9h_hc1)

end CollapseIdempotent

end MPS
